import Mathlib

/-!
# Verification of the json-schema-tools composition core

A shallow embedding of the library's composition engine:

* `Json` models `serde_json::Value` with the `preserve_order` feature
  (objects are insertion-ordered mappings; `Map::insert` replaces an existing
  key's value in place or appends a new key; `Map::remove` is `swap_remove`,
  moving the final entry into the removed slot).
* `Reference` with its parser (`src/lib/src/reference.rs`, the regex
  `^(?:((?:/\w+)*)/(\w+))?(?:#/\$defs/(\w+))?$` made into a deterministic
  character-list parser) and serializer (the `Display` instance).
* `compose`, `getId`, `getTopLevelDef`, `modifyReferences`
  (`src/lib/src/compose.rs`).
* `Path.hasFreeKeys` (`src/lib/src/path.rs`).

Rust strings are modelled as Lean `String`s; the reference grammar's `\w`
character class is modelled as ASCII alphanumerics plus underscore.
-/

/-- Modelled from the spec: the reserved identifier field key. The constants
module of the repository is not among the provided sources; the values are
fixed by the spec's reserved-field contract, the regex literal in
`reference.rs`, and the unit tests in `compose.rs`. -/
def ID_KEY : String := "$id"

/-- Modelled from the spec: the reserved definitions-namespace field key
(hard-coded as `\$defs` in the reference grammar's regex). -/
def DEFS_KEY : String := "$defs"

/-- Modelled from the spec: the reserved reference field key. -/
def REF_KEY : String := "$ref"

/-- Modelled from the spec: the free-keyed `properties` field key used by the
path tracker. -/
def PROPERTIES_KEY : String := "properties"

/-- `serde_json::Value` (`preserve_order`): objects are insertion-ordered
association lists. -/
inductive Json where
  | null : Json
  | bool (b : Bool) : Json
  | num (n : Int) : Json
  | str (s : String) : Json
  | arr (items : List Json) : Json
  | obj (fields : List (String × Json)) : Json

/-- `Map::get`: the value at the first occurrence of a key. -/
def getKeyF (fields : List (String × Json)) (k : String) : Option Json :=
  (fields.find? (fun kv => kv.1 = k)).map (fun kv => kv.2)

/-- `Value::get`: field lookup, `none` on non-objects. -/
def Json.getKey : Json → String → Option Json
  | .obj fields, k => getKeyF fields k
  | _, _ => none

/-- `IndexMap::insert` (`preserve_order`): replace the value of an existing
key in place, otherwise append the new entry. -/
def insertKey : List (String × Json) → String → Json → List (String × Json)
  | [], k, v => [(k, v)]
  | (k1, v1) :: rest, k, v =>
    if k1 = k then (k1, v) :: rest else (k1, v1) :: insertKey rest k v

/-- `Map::remove` under `preserve_order` is `IndexMap::swap_remove`: the final
entry moves into the removed key's slot. Absent keys leave the map unchanged. -/
def swapRemoveKey (k : String) (fields : List (String × Json)) :
    List (String × Json) :=
  match fields.findIdx? (fun kv => kv.1 = k) with
  | none => fields
  | some i =>
    match fields.getLast? with
    | none => fields
    | some last => fields.dropLast.set i last

/-- The keys of an object field list, in stored order. -/
def keysOf (fields : List (String × Json)) : List String :=
  fields.map (fun kv => kv.1)

/-! ## The path tracker (`src/lib/src/path.rs`) -/

/-- `path::Entry`: one step of a structural path. -/
inductive Entry where
  | key (k : String) : Entry
  | index (i : Nat) : Entry
  deriving DecidableEq, Repr

/-- `path::Path`: a structural location descriptor (renamed from the source's
`Path`, which clashes with a Mathlib name). -/
structure JsonPath where
  entries : List Entry
  deriving DecidableEq, Repr

/-- `Path::has_free_keys`: the last entry is the `properties` or `$defs`
object key. -/
def JsonPath.hasFreeKeys (p : JsonPath) : Bool :=
  match p.entries.getLast? with
  | some (.key k) => k = PROPERTIES_KEY ∨ k = DEFS_KEY
  | _ => false

/-! ## The reference grammar (`src/lib/src/reference.rs`) -/

/-- `UnsupportedRefReason`. -/
inductive RefReason where
  | hasScheme
  | hasQuery
  | invalidStructure
  deriving DecidableEq, Repr

/-- `reference::Error::UnsupportedRef`: reason plus offending string. -/
structure RefError where
  reason : RefReason
  value : String
  deriving DecidableEq, Repr

/-- `Reference`: the three-variant reference model. -/
inductive Reference where
  | pathOnly (pathPrefix : List String) (pathName : String) : Reference
  | fragmentOnly (fragmentName : String) : Reference
  | both (pathPrefix : List String) (pathName : String) (fragmentName : String) :
      Reference
  deriving DecidableEq, Repr

/-- An executable instance of the regex's `\w` character class: its ASCII
part (the regex crate's `\w` is Unicode-aware; the grammar classification
below is proved for an abstract word class and this instance serves concrete
evaluation). -/
def isWordChar (c : Char) : Bool :=
  c.isAlphanum || c = '_'

/-- Segment accumulator for `segsOf`: `acc` holds the reversed characters of
the word segment currently being read. -/
def segsGo (acc : List Char) : List Char → Option (List (List Char))
  | [] => if acc = [] then none else some [acc.reverse]
  | c :: rest =>
    if c = '/' then
      if acc = [] then none
      else (segsGo [] rest).map (fun l => acc.reverse :: l)
    else if isWordChar c then segsGo (c :: acc) rest
    else none

/-- Decompose a character list as the regex path component `(?:/\w+)*`,
returning the list of segments; `none` when the list is not of that shape. -/
def segsOf : List Char → Option (List (List Char))
  | [] => some []
  | '/' :: rest => segsGo [] rest
  | _ => none

/-- Strip the literal fragment opener `#/$defs/` of the regex. -/
def stripHashDefs : List Char → Option (List Char)
  | '#' :: '/' :: '$' :: 'd' :: 'e' :: 'f' :: 's' :: '/' :: rest => some rest
  | _ => none

/-- Decompose the fragment component: `some none` when absent, `some (some f)`
for the exact shape `#/$defs/f` with `f` a nonempty word, else `none`. -/
def fragOf (cs : List Char) : Option (Option (List Char)) :=
  match cs with
  | [] => some none
  | _ =>
    match stripHashDefs cs with
    | some rest =>
      if rest ≠ [] ∧ rest.all isWordChar then some (some rest) else none
    | none => none

/-- The character-level reference parser: the `FromStr` implementation, with
the scheme and query checks followed by the anchored regex match. -/
def parseRefChars (cs : List Char) : Except RefError Reference :=
  if ¬ (cs.head? = some '/' ∨ cs.head? = some '#') then
    .error ⟨.hasScheme, cs.asString⟩
  else if '?' ∈ cs then
    .error ⟨.hasQuery, cs.asString⟩
  else
    match segsOf (cs.takeWhile (fun c => c ≠ '#')),
        fragOf (cs.dropWhile (fun c => c ≠ '#')) with
    | some (s :: ss), some (some f) =>
      .ok (.both ((s :: ss).dropLast.map List.asString)
        (((s :: ss).getLast (by simp)).asString) f.asString)
    | some (s :: ss), some none =>
      .ok (.pathOnly ((s :: ss).dropLast.map List.asString)
        (((s :: ss).getLast (by simp)).asString))
    | some [], some (some f) => .ok (.fragmentOnly f.asString)
    | _, _ => .error ⟨.invalidStructure, cs.asString⟩

/-- `FromStr for Reference`. -/
def parseRef (s : String) : Except RefError Reference :=
  parseRefChars s.toList

/-- The serialized characters of a reference (the `Display` instance). -/
def refChars : Reference → List Char
  | .pathOnly pre name =>
    (pre.map (fun seg => '/' :: seg.toList)).flatten ++ '/' :: name.toList
  | .fragmentOnly f => '#' :: '/' :: '$' :: 'd' :: 'e' :: 'f' :: 's' :: '/' :: f.toList
  | .both pre name f =>
    (pre.map (fun seg => '/' :: seg.toList)).flatten ++ '/' :: name.toList ++
      '#' :: '/' :: '$' :: 'd' :: 'e' :: 'f' :: 's' :: '/' :: f.toList

/-- `Display for Reference`. -/
def refToString (r : Reference) : String :=
  (refChars r).asString

/-- `Reference::path`: the path-only serialization, when a path is present. -/
def Reference.path : Reference → Option String
  | .pathOnly pre name => some (refToString (.pathOnly pre name))
  | .both pre name _ => some (refToString (.pathOnly pre name))
  | .fragmentOnly _ => none

/-- `Reference::name`: the qualifying name of the reference. -/
def Reference.name : Reference → String
  | .pathOnly _ name => name
  | .both _ _ f => f
  | .fragmentOnly f => f

example : parseRef "/foo/bar/baz#/$defs/qux" =
    .ok (.both ["foo", "bar"] "baz" "qux") := by rfl

example : parseRef "/foo/bar/baz" = .ok (.pathOnly ["foo", "bar"] "baz") := by rfl

example : parseRef "#/$defs/qux" = .ok (.fragmentOnly "qux") := by rfl

example : refToString (.both ["foo", "bar"] "baz" "qux") = "/foo/bar/baz#/$defs/qux" := by rfl

example : parseRef "foo" = .error ⟨.hasScheme, "foo"⟩ := by rfl

example : parseRef "/foo?x" = .error ⟨.hasQuery, "/foo?x"⟩ := by rfl

example : parseRef "/foo/" = .error ⟨.invalidStructure, "/foo/"⟩ := by rfl

/-! ## The composition algorithm (`src/lib/src/compose.rs`) -/

/-- `compose::Error`. -/
inductive ComposeError where
  | missingId (v : Json) : ComposeError
  | invalidId (s : String) : ComposeError
  | invalidRef (e : RefError) : ComposeError
  | missingDefs (v : Json) : ComposeError

/-- `get_id`: the `$id` field, required to be present and a string. -/
def getId (v : Json) : Except ComposeError String :=
  match v.getKey ID_KEY with
  | some (.str s) => .ok s
  | _ => .error (.missingId v)

/-- `get_top_level_def`: when the sub-document carries keys other than
`$id`/`$defs`, a clone with the `$defs` field removed (`Map::remove`, i.e.
swap-removal under `preserve_order`). -/
def getTopLevelDef (v : Json) : Option Json :=
  match v with
  | .obj fields =>
    if fields.any (fun kv => ¬ (kv.1 = ID_KEY) ∧ ¬ (kv.1 = DEFS_KEY)) then
      some (.obj (swapRemoveKey DEFS_KEY fields))
    else
      none
  | _ => none

/-- The replacement value for the `$ref` field of one object, when that field
is present with a string value: parse it and apply the transform; `none`
keeps the field. Mirrors the head of the object case of `modify_references`. -/
def refReplacement (f : Reference → Except ComposeError (Option Reference))
    (fields : List (String × Json)) : Except ComposeError (Option Json) :=
  match getKeyF fields REF_KEY with
  | some (.str s) =>
    match parseRef s with
    | .error e => .error (.invalidRef e)
    | .ok r =>
      match f r with
      | .error e => .error e
      | .ok (some newRef) => .ok (some (.str (refToString newRef)))
      | .ok none => .ok none
  | _ => .ok none

mutual

/-- `modify_references`: depth-first in-place rewrite of every `$ref` field.
For an object the `$ref` field (if present with a string value) is parsed and
transformed first, then every field value is visited; the `$ref` value after
the head step is a string, so visiting it is a no-op, which the field walk
realizes by substituting the replacement at that entry. -/
def modifyReferences (f : Reference → Except ComposeError (Option Reference)) :
    Json → Except ComposeError Json
  | .arr items =>
    match modifyReferencesList f items with
    | .ok ys => .ok (.arr ys)
    | .error e => .error e
  | .obj fields =>
    match refReplacement f fields with
    | .ok repl =>
      match modifyReferencesFields f repl false fields with
      | .ok gs => .ok (.obj gs)
      | .error e => .error e
    | .error e => .error e
  | v => .ok v

/-- Array elements of `modify_references`, in order. -/
def modifyReferencesList (f : Reference → Except ComposeError (Option Reference)) :
    List Json → Except ComposeError (List Json)
  | [] => .ok []
  | v :: rest =>
    match modifyReferences f v with
    | .ok w =>
      match modifyReferencesList f rest with
      | .ok ys => .ok (w :: ys)
      | .error e => .error e
    | .error e => .error e

/-- Object fields of `modify_references`, in order. The first `$ref` entry
holding a string receives the precomputed replacement (`seen` tracks whether
it was passed); every other value is visited recursively. -/
def modifyReferencesFields
    (f : Reference → Except ComposeError (Option Reference))
    (repl : Option Json) (seen : Bool) :
    List (String × Json) → Except ComposeError (List (String × Json))
  | [] => .ok []
  | (k, v) :: rest =>
    if ¬ seen ∧ k = REF_KEY then
      match v with
      | .str s =>
        match modifyReferencesFields f repl true rest with
        | .ok gs => .ok ((k, repl.getD (.str s)) :: gs)
        | .error e => .error e
      | _ =>
        match modifyReferences f v with
        | .ok w =>
          match modifyReferencesFields f repl true rest with
          | .ok gs => .ok ((k, w) :: gs)
          | .error e => .error e
        | .error e => .error e
    else
      match modifyReferences f v with
      | .ok w =>
        match modifyReferencesFields f repl seen rest with
        | .ok gs => .ok ((k, w) :: gs)
        | .error e => .error e
      | .error e => .error e

end

/-- The transform applied inside each sub-document (`compose.rs`, lines
40-49): `FragmentOnly` is promoted to `Both` anchored at the sub-document's
own parsed identifier; everything else is kept. -/
def subTransform (pathPre : List String) (pathName : String) (r : Reference) :
    Except ComposeError (Option Reference) :=
  match r with
  | .fragmentOnly fragmentName => .ok (some (.both pathPre pathName fragmentName))
  | _ => .ok none

/-- The identifier registry: insertion-ordered with newest entry first, so a
later registration of the same identifier overwrites (`HashMap::insert`). -/
def registryGet (reg : List (String × Option String)) (k : String) :
    Option (Option String) :=
  (reg.find? (fun kv => kv.1 = k)).map (fun kv => kv.2)

/-- The transform applied to the base document after merging (`compose.rs`,
lines 71-89): a reference carrying a path is looked up in the registry by its
path-only serialization; an unregistered path is `InvalidId`, a registered one
rewrites to `FragmentOnly` named `prefix ++ name`. -/
def baseTransform (reg : List (String × Option String)) (r : Reference) :
    Except ComposeError (Option Reference) :=
  match r.path with
  | none => .ok none
  | some p =>
    match registryGet reg p with
    | none => .error (.invalidId (refToString r))
    | some pfx => .ok (some (.fragmentOnly ((pfx.getD "") ++ r.name)))

/-- The definitions-namespace insertions contributed by one rewritten
sub-document: its top-level content (if any), then each of its own `$defs`
entries, all under `prefix ++ name` keys. -/
def mergeSub (defs : List (String × Json)) (pfx : Option String)
    (pathName : String) (newSub : Json) : List (String × Json) :=
  let defs1 :=
    match getTopLevelDef newSub with
    | some d => insertKey defs ((pfx.getD "") ++ pathName) d
    | none => defs
  match newSub.getKey DEFS_KEY with
  | some (.obj fs) =>
    fs.foldl (fun acc kv => insertKey acc ((pfx.getD "") ++ kv.1) kv.2) defs1
  | _ => defs1

def processSub (defs : List (String × Json)) (reg : List (String × Option String))
    (pfx : Option String) (sub : Json) :
    Except ComposeError (List (String × Json) × List (String × Option String)) :=
  match getId sub with
  | .error e => .error e
  | .ok id =>
    match parseRef id with
    | .ok (.pathOnly pathPre pathName) =>
      match modifyReferences (subTransform pathPre pathName) sub with
      | .error e => .error e
      | .ok newSub => .ok (mergeSub defs pfx pathName newSub, (id, pfx) :: reg)
    | _ => .error (ComposeError.invalidId id)

/-- The sub-document loop of `compose`, in input order. -/
def processSubs (subs : List (Option String × Json))
    (defs : List (String × Json)) (reg : List (String × Option String)) :
    Except ComposeError (List (String × Json) × List (String × Option String)) :=
  match subs with
  | [] => .ok (defs, reg)
  | (pfx, sub) :: rest =>
    match processSub defs reg pfx sub with
    | .ok (defs2, reg2) => processSubs rest defs2 reg2
    | .error e => .error e

/-- Replace the value stored at a key of an object, in place (the mutation
performed through `get_mut`); non-objects are unchanged. -/
def setObjKey : Json → String → Json → Json
  | .obj fields, k, v => .obj (insertKey fields k v)
  | j, _, _ => j

/-- `compose` (`src/lib/src/compose.rs`, lines 17-92): clone the base, require
its `$defs` object, process every sub-document in order accumulating the
merged definitions and the identifier registry, then rewrite the clone's
references against the registry. -/
def compose (base : Json) (subs : List (Option String × Json)) :
    Except ComposeError Json :=
  match base.getKey DEFS_KEY with
  | some (.obj fs) =>
    match processSubs subs fs [] with
    | .ok (defs, reg) =>
      modifyReferences (baseTransform reg) (setObjKey base DEFS_KEY (.obj defs))
    | .error e => .error e
  | _ => .error (ComposeError.missingDefs base)

example : compose
    (.obj [("properties", .obj [("foo", .obj [("$ref", .str "/schemas/bar")])]),
           ("$defs", .obj [])])
    [(none, .obj [("$id", .str "/schemas/bar"), ("type", .str "integer")])] =
    .ok (.obj [("properties", .obj [("foo", .obj [("$ref", .str "#/$defs/bar")])]),
               ("$defs", .obj [("bar",
                 .obj [("$id", .str "/schemas/bar"), ("type", .str "integer")])])]) := by
  rfl

/-- The unit test of `compose.rs` replayed against the embedding (the expected
value's object orders follow the insertion orders the algorithm produces). -/
example : compose
    (.obj [("type", .str "object"),
           ("properties", .obj
             [("foo", .obj [("$ref", .str "/schemas/bar")]),
              ("baz", .obj [("$ref", .str "/schemas/qux#/$defs/oof")]),
              ("p", .obj [("$ref", .str "/schemas/prefixed#/$defs/prefixed_thing")])]),
           ("$defs", .obj [])])
    [(none, .obj [("$id", .str "/schemas/bar"), ("type", .str "integer")]),
     (none, .obj [("$id", .str "/schemas/qux"),
                  ("$defs", .obj [("oof", .obj [("enum", .arr [.str "ABC", .str "DEF"])])])]),
     (none, .obj [("$id", .str "/schemas/top_level"),
                  ("enum", .arr [.num 1, .num 2, .num 3]),
                  ("$defs", .obj [("top-level_stuff", .obj [("type", .str "boolean")])])]),
     (some "abcd_", .obj [("$id", .str "/schemas/prefixed"),
                          ("$defs", .obj [("prefixed_thing",
                            .obj [("type", .str "array"), ("items", .str "number")])])])] =
    .ok (.obj [("type", .str "object"),
               ("properties", .obj
                 [("foo", .obj [("$ref", .str "#/$defs/bar")]),
                  ("baz", .obj [("$ref", .str "#/$defs/oof")]),
                  ("p", .obj [("$ref", .str "#/$defs/abcd_prefixed_thing")])]),
               ("$defs", .obj
                 [("bar", .obj [("$id", .str "/schemas/bar"), ("type", .str "integer")]),
                  ("oof", .obj [("enum", .arr [.str "ABC", .str "DEF"])]),
                  ("top_level", .obj [("$id", .str "/schemas/top_level"),
                                      ("enum", .arr [.num 1, .num 2, .num 3])]),
                  ("top-level_stuff", .obj [("type", .str "boolean")]),
                  ("abcd_prefixed_thing",
                    .obj [("type", .str "array"), ("items", .str "number")])])]) := by
  rfl

/-! ## Claims -/

/-- C10: the path tracker classifies a location as free-keyed exactly when the
last entry of its structural path is the object key `properties` or the object
key `$defs`; every other path (the empty root path, or one ending in an array
index or any other key) is fixed-keyed. -/
theorem hasFreeKeys_iff_last_props_or_defs (p : JsonPath) :
    p.hasFreeKeys = true ↔
      p.entries.getLast? = some (.key PROPERTIES_KEY) ∨
        p.entries.getLast? = some (.key DEFS_KEY) := by
  unfold JsonPath.hasFreeKeys
  rcases h : p.entries.getLast? with _ | e
  · simp
  · cases e with
    | key k => simp [PROPERTIES_KEY, DEFS_KEY]
    | index i => simp

/-- C2: composing the base
`(properties (foo ($ref /schemas/bar))) ($defs ())` with the single
unprefixed sub-document `($id /schemas/bar) (type integer)` yields exactly the
base with the reference rewritten to `#/$defs/bar` and the sub-document,
`$id` retained, merged as the definitions entry `bar`. -/
theorem compose_end_to_end_example : compose
    (.obj [("properties", .obj [("foo", .obj [("$ref", .str "/schemas/bar")])]),
           ("$defs", .obj [])])
    [(none, .obj [("$id", .str "/schemas/bar"), ("type", .str "integer")])] =
    .ok (.obj [("properties", .obj [("foo", .obj [("$ref", .str "#/$defs/bar")])]),
               ("$defs", .obj [("bar",
                 .obj [("$id", .str "/schemas/bar"), ("type", .str "integer")])])]) := by
  rfl

/-- C9: a sub-document whose `$id` field is present but holds a non-string
value makes `compose` fail with `MissingId` (not `InvalidId`), whenever the
sub-document is reached (the base carries a `$defs` object and the document
heads the list). -/
theorem compose_nonstring_id_missingId (base : Json) (defs0 : List (String × Json))
    (pfx : Option String) (sub : Json) (w : Json)
    (rest : List (Option String × Json))
    (hdefs : base.getKey DEFS_KEY = some (.obj defs0))
    (hid : sub.getKey ID_KEY = some w)
    (hw : ∀ s, w ≠ .str s) :
    compose base ((pfx, sub) :: rest) = .error (.missingId sub) := by
  have hgetId : getId sub = .error (.missingId sub) := by
    unfold getId
    rw [hid]
    cases w with
    | str s => exact absurd rfl (hw s)
    | null => rfl
    | bool b => rfl
    | num n => rfl
    | arr items => rfl
    | obj fields => rfl
  unfold compose
  rw [hdefs]
  unfold processSubs processSub
  rw [hgetId]

/-- Witness for C9: the sub-document `($id 3)` at the head of the list. -/
theorem compose_nonstring_id_missingId_witness :
    compose (.obj [("$defs", .obj [])]) [(none, .obj [("$id", .num 3)])] =
      .error (.missingId (.obj [("$id", .num 3)])) :=
  compose_nonstring_id_missingId (.obj [("$defs", .obj [])]) [] none
    (.obj [("$id", .num 3)]) (.num 3) [] rfl rfl (fun s h => by cases h)

/-! ## Round-trip of the reference grammar -/

/-- Rejoin path segments, a leading slash before each. -/
def joinSegs (l : List (List Char)) : List Char :=
  (l.map (fun s => '/' :: s)).flatten

theorem segsGo_join (cs : List Char) : ∀ acc ll, segsGo acc cs = some ll →
    ∃ hd tl, ll = hd :: tl ∧ hd ++ joinSegs tl = acc.reverse ++ cs := by
  induction cs with
  | nil =>
    intro acc ll h
    unfold segsGo at h
    split at h
    · exact absurd h (by simp)
    · refine ⟨acc.reverse, [], by simpa using h.symm, by simp [joinSegs]⟩
  | cons c rest ih =>
    intro acc ll h
    unfold segsGo at h
    by_cases hc : c = '/'
    · subst hc
      rw [if_pos rfl] at h
      by_cases ha : acc = []
      · rw [if_pos ha] at h
        exact absurd h (by simp)
      · rw [if_neg ha] at h
        obtain ⟨ll', hll', rfl⟩ := Option.map_eq_some'.mp h
        obtain ⟨hd', tl', rfl, hjoin⟩ := ih [] ll' hll'
        refine ⟨acc.reverse, hd' :: tl', rfl, ?_⟩
        simp only [joinSegs, List.map_cons, List.flatten_cons] at hjoin ⊢
        simp at hjoin
        simp [hjoin]
    · rw [if_neg hc] at h
      by_cases hw : isWordChar c
      · rw [if_pos hw] at h
        obtain ⟨hd, tl, rfl, hjoin⟩ := ih (c :: acc) ll h
        refine ⟨hd, tl, rfl, ?_⟩
        simpa using hjoin
      · rw [if_neg hw] at h
        exact absurd h (by simp)

theorem segsOf_join {cs : List Char} {l : List (List Char)}
    (h : segsOf cs = some l) : joinSegs l = cs := by
  unfold segsOf at h
  split at h
  · simp_all [joinSegs]
  · obtain ⟨hd, tl, rfl, hjoin⟩ := segsGo_join _ [] l h
    simp only [joinSegs, List.map_cons, List.flatten_cons]
    simp only [List.reverse_nil, List.nil_append] at hjoin
    simpa [joinSegs] using hjoin
  · exact absurd h (by simp)

theorem stripHashDefs_inv {cs rest : List Char} (h : stripHashDefs cs = some rest) :
    cs = '#' :: '/' :: '$' :: 'd' :: 'e' :: 'f' :: 's' :: '/' :: rest := by
  unfold stripHashDefs at h
  split at h
  · simp at h
    simp [h]
  · exact absurd h (by simp)

theorem fragOf_none_inv {cs : List Char} (h : fragOf cs = some none) : cs = [] := by
  unfold fragOf at h
  split at h
  · rfl
  · split at h
    · split at h <;> simp_all
    · exact absurd h (by simp)

theorem fragOf_some_inv {cs f : List Char} (h : fragOf cs = some (some f)) :
    cs = '#' :: '/' :: '$' :: 'd' :: 'e' :: 'f' :: 's' :: '/' :: f ∧
      f ≠ [] ∧ f.all isWordChar := by
  unfold fragOf at h
  split at h
  · exact absurd h (by simp)
  · split at h
    case _ rest hstrip =>
      split at h
      · simp only [Option.some.injEq] at h
        obtain rfl : f = rest := by simp_all
        exact ⟨stripHashDefs_inv hstrip, by simp_all⟩
      · exact absurd h (by simp)
    · exact absurd h (by simp)

theorem dropLast_getLast_join : ∀ (l : List (List Char)) (h : l ≠ []),
    (l.dropLast.map (fun s => '/' :: s)).flatten ++ '/' :: l.getLast h = joinSegs l := by
  intro l
  induction l with
  | nil => intro h; exact absurd rfl h
  | cons x tl ih =>
    intro _
    cases tl with
    | nil => simp [joinSegs]
    | cons y tl' =>
      have h2 := ih (by simp)
      simp only [joinSegs, List.map_cons, List.flatten_cons] at h2 ⊢
      simp only [List.dropLast_cons₂, List.map_cons, List.flatten_cons,
        List.getLast_cons_cons]
      rw [List.append_assoc, h2]

theorem data_asString (l : List Char) : (l.asString).data = l :=
  rfl

theorem parseRefChars_roundTrip {cs : List Char} {r : Reference}
    (h : parseRefChars cs = .ok r) : refChars r = cs := by
  unfold parseRefChars at h
  split at h
  · exact absurd h (by simp)
  · split at h
    · exact absurd h (by simp)
    · split at h
      case _ s ss f hsegs hfrag =>
        obtain rfl := (Except.ok.inj h).symm
        obtain ⟨hfragEq, -, -⟩ := fragOf_some_inv hfrag
        have hpath := segsOf_join hsegs
        conv_rhs => rw [← List.takeWhile_append_dropWhile
          (p := fun c => decide (c ≠ '#')) (l := cs)]
        rw [← hpath, hfragEq]
        simp only [refChars, List.map_map]
        have hmap : (fun seg => '/' :: String.toList seg) ∘ List.asString =
            fun s : List Char => '/' :: s := rfl
        rw [hmap, List.toList_asString, List.toList_asString]
        rw [dropLast_getLast_join (s :: ss) (by simp)]
      case _ s ss hsegs hfrag =>
        obtain rfl := (Except.ok.inj h).symm
        have hfragEq := fragOf_none_inv hfrag
        have hpath := segsOf_join hsegs
        conv_rhs => rw [← List.takeWhile_append_dropWhile
          (p := fun c => decide (c ≠ '#')) (l := cs)]
        rw [← hpath, hfragEq, List.append_nil]
        simp only [refChars, List.map_map]
        have hmap : (fun seg => '/' :: String.toList seg) ∘ List.asString =
            fun s : List Char => '/' :: s := rfl
        rw [hmap, List.toList_asString]
        exact dropLast_getLast_join (s :: ss) (by simp)
      case _ f hsegs hfrag =>
        obtain rfl := (Except.ok.inj h).symm
        obtain ⟨hfragEq, -, -⟩ := fragOf_some_inv hfrag
        have hpath := segsOf_join hsegs
        simp only [joinSegs, List.map_nil, List.flatten_nil] at hpath
        conv_rhs => rw [← List.takeWhile_append_dropWhile
          (p := fun c => decide (c ≠ '#')) (l := cs)]
        rw [← hpath, hfragEq]
        simp [refChars, data_asString]
      · exact absurd h (by simp)

/-- C3: every string the reference parser accepts serializes back to exactly
itself. -/
theorem parse_serialize_roundTrip (s : String) (r : Reference)
    (h : parseRef s = .ok r) : refToString r = s := by
  unfold parseRef at h
  unfold refToString
  rw [parseRefChars_roundTrip h, String.asString_toList]

/-- Witness for C3 at `/foo/bar/baz#/$defs/qux`. -/
theorem parse_serialize_roundTrip_witness :
    refToString (.both ["foo", "bar"] "baz" "qux") = "/foo/bar/baz#/$defs/qux" :=
  parse_serialize_roundTrip "/foo/bar/baz#/$defs/qux" (.both ["foo", "bar"] "baz" "qux")
    (by rfl)

/-! ## Key-structure preservation -/

/-- Structural induction for the nested `Json` inductive. -/
theorem Json.myInduction (P : Json → Prop)
    (hnull : P .null) (hbool : ∀ b, P (.bool b)) (hnum : ∀ n, P (.num n))
    (hstr : ∀ s, P (.str s))
    (harr : ∀ items, (∀ v ∈ items, P v) → P (.arr items))
    (hobj : ∀ fields, (∀ kv ∈ fields, P kv.2) → P (.obj fields)) :
    ∀ v, P v :=
  fun v =>
    @Json.rec P (fun l => ∀ x ∈ l, P x)
      (fun l => ∀ kv ∈ l, P kv.2) (fun kv => P kv.2)
      hnull hbool hnum hstr harr hobj
      (fun x hx => absurd hx (List.not_mem_nil x))
      (fun _ _ ihh iht x hx =>
        Or.elim (List.mem_cons.mp hx) (fun h => h ▸ ihh) (iht x))
      (fun kv hkv => absurd hkv (List.not_mem_nil kv))
      (fun _ _ ihh iht kv hkv =>
        Or.elim (List.mem_cons.mp hkv) (fun h => h ▸ ihh) (iht kv))
      (fun _ _ ih => ih)
      v

/-- A leaf (non-container) value. -/
def isScalar : Json → Bool
  | .arr _ => false
  | .obj _ => false
  | _ => true

mutual

/-- Two trees with the same container skeleton: identical object key lists
(same keys, same order) and array lengths everywhere; leaves are
unconstrained. This is the invariant the reference walker preserves. -/
def SameShape : Json → Json → Prop
  | .arr xs, .arr ys => SameShapeList xs ys
  | .obj fs, .obj gs => SameShapeFields fs gs
  | a, b => isScalar a = true ∧ isScalar b = true

/-- Pointwise `SameShape` on array elements. -/
def SameShapeList : List Json → List Json → Prop
  | [], [] => True
  | x :: xs, y :: ys => SameShape x y ∧ SameShapeList xs ys
  | _, _ => False

/-- Pointwise `SameShape` on object fields with identical keys in order. -/
def SameShapeFields : List (String × Json) → List (String × Json) → Prop
  | [], [] => True
  | (k, v) :: fs, (k2, w) :: gs => k = k2 ∧ SameShape v w ∧ SameShapeFields fs gs
  | _, _ => False

end

theorem refReplacement_ok_shape {f : Reference → Except ComposeError (Option Reference)}
    {fields : List (String × Json)} {j : Json}
    (h : refReplacement f fields = .ok (some j)) : ∃ s, j = .str s := by
  unfold refReplacement at h
  split at h
  · split at h
    · exact absurd h (by simp)
    · split at h
      · exact absurd h (by simp)
      · exact ⟨_, by simpa using h.symm⟩
      · exact absurd h (by simp)
  · exact absurd h (by simp)

theorem sameShape_of_scalar {a b : Json} (ha : isScalar a = true)
    (hb : isScalar b = true) : SameShape a b := by
  cases a <;> cases b <;> simp_all [SameShape, isScalar]

theorem modifyReferencesFields_shape
    {f : Reference → Except ComposeError (Option Reference)} :
    ∀ (fields : List (String × Json)) (repl : Option Json) (seen : Bool)
      (gs : List (String × Json)),
      (∀ kv ∈ fields, ∀ w, modifyReferences f kv.2 = .ok w → SameShape kv.2 w) →
      (repl = none ∨ ∃ s, repl = some (.str s)) →
      modifyReferencesFields f repl seen fields = .ok gs →
      SameShapeFields fields gs := by
  intro fields
  induction fields with
  | nil =>
    intro repl seen gs _ _ h
    unfold modifyReferencesFields at h
    obtain rfl := (Except.ok.inj h).symm
    simp [SameShapeFields]
  | cons kv rest ih =>
    intro repl seen gs hmem hrepl h
    obtain ⟨k, v⟩ := kv
    have hrestmem : ∀ kv ∈ rest, ∀ w, modifyReferences f kv.2 = .ok w →
        SameShape kv.2 w :=
      fun kv hkv => hmem kv (by simp [hkv])
    unfold modifyReferencesFields at h
    split at h
    · split at h
      · rename_i s
        split at h
        · rename_i gs' hrest
          obtain rfl := (Except.ok.inj h).symm
          refine ⟨rfl, ?_, ih repl true gs' hrestmem hrepl hrest⟩
          rcases hrepl with rfl | ⟨t, rfl⟩
          · exact sameShape_of_scalar rfl rfl
          · exact sameShape_of_scalar rfl rfl
        · exact absurd h (by simp)
      · split at h
        · rename_i w hv
          split at h
          · rename_i gs' hrest
            obtain rfl := (Except.ok.inj h).symm
            exact ⟨rfl, hmem (k, v) (by simp) w hv,
              ih repl true gs' hrestmem hrepl hrest⟩
          · exact absurd h (by simp)
        · exact absurd h (by simp)
    · split at h
      · rename_i w hv
        split at h
        · rename_i gs' hrest
          obtain rfl := (Except.ok.inj h).symm
          exact ⟨rfl, hmem (k, v) (by simp) w hv,
            ih repl seen gs' hrestmem hrepl hrest⟩
        · exact absurd h (by simp)
      · exact absurd h (by simp)

theorem modifyReferencesList_shape
    {f : Reference → Except ComposeError (Option Reference)} :
    ∀ (items : List Json) (ys : List Json),
      (∀ v ∈ items, ∀ w, modifyReferences f v = .ok w → SameShape v w) →
      modifyReferencesList f items = .ok ys →
      SameShapeList items ys := by
  intro items
  induction items with
  | nil =>
    intro ys _ h
    unfold modifyReferencesList at h
    obtain rfl := (Except.ok.inj h).symm
    simp [SameShapeList]
  | cons v rest ih =>
    intro ys hmem h
    unfold modifyReferencesList at h
    split at h
    · rename_i w hv
      split at h
      · rename_i ys' hrest
        obtain rfl := (Except.ok.inj h).symm
        exact ⟨hmem v (by simp) w hv,
          ih ys' (fun x hx => hmem x (by simp [hx])) hrest⟩
      · exact absurd h (by simp)
    · exact absurd h (by simp)

/-- The reference walker never disturbs the container skeleton: a successful
`modify_references` returns a tree with identical object key lists and array
lengths everywhere. -/
theorem modifyReferences_shape
    {f : Reference → Except ComposeError (Option Reference)} :
    ∀ (v : Json) (w : Json), modifyReferences f v = .ok w → SameShape v w := by
  intro v
  induction v using Json.myInduction with
  | hnull =>
    intro w h
    unfold modifyReferences at h
    obtain rfl := (Except.ok.inj h)
    exact sameShape_of_scalar rfl rfl
  | hbool b =>
    intro w h
    unfold modifyReferences at h
    obtain rfl := (Except.ok.inj h)
    exact sameShape_of_scalar rfl rfl
  | hnum n =>
    intro w h
    unfold modifyReferences at h
    obtain rfl := (Except.ok.inj h)
    exact sameShape_of_scalar rfl rfl
  | hstr s =>
    intro w h
    unfold modifyReferences at h
    obtain rfl := (Except.ok.inj h)
    exact sameShape_of_scalar rfl rfl
  | harr items ihm =>
    intro w h
    unfold modifyReferences at h
    split at h
    · rename_i ys hl
      obtain rfl := (Except.ok.inj h).symm
      show SameShapeList items ys
      exact modifyReferencesList_shape items ys ihm hl
    · exact absurd h (by simp)
  | hobj fields ihm =>
    intro w h
    unfold modifyReferences at h
    split at h
    · rename_i repl hr
      split at h
      · rename_i gs hf
        obtain rfl := (Except.ok.inj h).symm
        show SameShapeFields fields gs
        refine modifyReferencesFields_shape fields repl false gs ihm ?_ hf
        cases repl with
        | none => exact Or.inl rfl
        | some j =>
          obtain ⟨s, rfl⟩ := refReplacement_ok_shape hr
          exact Or.inr ⟨s, rfl⟩
      · exact absurd h (by simp)
    · exact absurd h (by simp)

/-! ## Key-list lemmas -/

theorem sameShapeFields_keys : ∀ {fs gs : List (String × Json)},
    SameShapeFields fs gs → keysOf fs = keysOf gs := by
  intro fs
  induction fs with
  | nil =>
    intro gs h
    cases gs with
    | nil => rfl
    | cons kv gs' => exact absurd h (by simp [SameShapeFields])
  | cons kv fs' ih =>
    intro gs h
    obtain ⟨k, v⟩ := kv
    cases gs with
    | nil => exact absurd h (by simp [SameShapeFields])
    | cons kv2 gs' =>
      obtain ⟨k2, w⟩ := kv2
      obtain ⟨rfl, -, htl⟩ := h
      have h2 := ih htl
      simp only [keysOf, List.map_cons] at h2 ⊢
      rw [h2]

theorem sameShape_obj_inv {fs : List (String × Json)} {w : Json}
    (h : SameShape (.obj fs) w) :
    ∃ gs, w = .obj gs ∧ SameShapeFields fs gs := by
  cases w with
  | obj gs => exact ⟨gs, rfl, h⟩
  | arr ys => exact absurd h (by simp [SameShape, isScalar])
  | null => exact absurd h.1 (by simp [isScalar])
  | bool b => exact absurd h.1 (by simp [isScalar])
  | num n => exact absurd h.1 (by simp [isScalar])
  | str s => exact absurd h.1 (by simp [isScalar])

theorem keysOf_insertKey (fields : List (String × Json)) (k : String) (v : Json) :
    keysOf (insertKey fields k v) =
      if k ∈ keysOf fields then keysOf fields else keysOf fields ++ [k] := by
  induction fields with
  | nil => simp [insertKey, keysOf]
  | cons kv rest ih =>
    obtain ⟨k1, v1⟩ := kv
    by_cases hk : k1 = k
    · subst hk
      simp [insertKey, keysOf]
    · simp only [insertKey, if_neg hk, keysOf, List.map_cons]
      simp only [keysOf] at ih
      rw [ih]
      by_cases hmem : k ∈ rest.map (fun kv => kv.1)
      · simp [hmem, Ne.symm hk]
      · simp [hmem, Ne.symm hk]

theorem keysOf_insertKey_extends (fields : List (String × Json)) (k : String)
    (v : Json) : ∃ ks, keysOf (insertKey fields k v) = keysOf fields ++ ks := by
  rw [keysOf_insertKey]
  by_cases hmem : k ∈ keysOf fields
  · exact ⟨[], by simp [hmem]⟩
  · exact ⟨[k], by simp [hmem]⟩

theorem mem_keysOf_insertKey (fields : List (String × Json)) (k k2 : String)
    (v : Json) : k2 ∈ keysOf (insertKey fields k v) ↔
      k2 ∈ keysOf fields ∨ k2 = k := by
  rw [keysOf_insertKey]
  by_cases hmem : k ∈ keysOf fields
  · simp only [if_pos hmem]
    constructor
    · exact Or.inl
    · rintro (h | rfl)
      · exact h
      · exact hmem
  · simp [if_neg hmem]

theorem keysOf_foldl_insert_extends (g : String × Json → String) :
    ∀ (l : List (String × Json)) (acc : List (String × Json)),
    ∃ ks, keysOf (l.foldl (fun acc kv => insertKey acc (g kv) kv.2) acc) =
      keysOf acc ++ ks := by
  intro l
  induction l with
  | nil => intro acc; exact ⟨[], by simp⟩
  | cons kv rest ih =>
    intro acc
    obtain ⟨ks1, h1⟩ := keysOf_insertKey_extends acc (g kv) kv.2
    obtain ⟨ks2, h2⟩ := ih (insertKey acc (g kv) kv.2)
    exact ⟨ks1 ++ ks2, by simp [List.foldl_cons, h2, h1]⟩

theorem mergeSub_defs_extends (defs : List (String × Json)) (pfx : Option String)
    (pathName : String) (newSub : Json) :
    ∃ ks, keysOf (mergeSub defs pfx pathName newSub) = keysOf defs ++ ks := by
  unfold mergeSub
  split
  case _ d h2 =>
    split
    case _ fs h =>
      obtain ⟨ks1, h1⟩ := keysOf_insertKey_extends defs ((pfx.getD "") ++ pathName) d
      obtain ⟨ks2, hk2⟩ := keysOf_foldl_insert_extends
        (fun kv => (pfx.getD "") ++ kv.1) fs (insertKey defs ((pfx.getD "") ++ pathName) d)
      exact ⟨ks1 ++ ks2, by rw [hk2, h1, List.append_assoc]⟩
    case _ => exact keysOf_insertKey_extends defs ((pfx.getD "") ++ pathName) d
  case _ =>
    split
    case _ fs h =>
      exact keysOf_foldl_insert_extends (fun kv => (pfx.getD "") ++ kv.1) fs defs
    case _ => exact ⟨[], by simp⟩

theorem processSub_defs_extends {defs : List (String × Json)}
    {reg : List (String × Option String)} {pfx : Option String} {sub : Json}
    {defs2 : List (String × Json)} {reg2 : List (String × Option String)}
    (h : processSub defs reg pfx sub = .ok (defs2, reg2)) :
    ∃ ks, keysOf defs2 = keysOf defs ++ ks := by
  unfold processSub at h
  split at h
  · exact absurd h (by simp)
  · split at h
    case _ pathPre pathName heq =>
      split at h
      · exact absurd h (by simp)
      case _ newSub hnew =>
        obtain ⟨h1, h2⟩ := Prod.mk.inj (Except.ok.inj h)
        rw [← h1]
        exact mergeSub_defs_extends defs pfx pathName newSub
    · exact absurd h (by simp)

theorem processSubs_defs_extends :
    ∀ (subs : List (Option String × Json)) (defs : List (String × Json))
      (reg : List (String × Option String)) (defs2 : List (String × Json))
      (reg2 : List (String × Option String)),
    processSubs subs defs reg = .ok (defs2, reg2) →
    ∃ ks, keysOf defs2 = keysOf defs ++ ks := by
  intro subs
  induction subs with
  | nil =>
    intro defs reg defs2 reg2 h
    unfold processSubs at h
    obtain ⟨h1, h2⟩ := Prod.mk.inj (Except.ok.inj h)
    exact ⟨[], by simp [h1]⟩
  | cons ps rest ih =>
    intro defs reg defs2 reg2 h
    obtain ⟨pfx, sub⟩ := ps
    unfold processSubs at h
    split at h
    case _ defsMid regMid hmid =>
      obtain ⟨ks1, h1⟩ := processSub_defs_extends hmid
      obtain ⟨ks2, h2⟩ := ih defsMid regMid defs2 reg2 h
      exact ⟨ks1 ++ ks2, by rw [h2, h1, List.append_assoc]⟩
    · exact absurd h (by simp)

theorem mem_keysOf_of_getKeyF {fields : List (String × Json)} {k : String}
    {v : Json} (h : getKeyF fields k = some v) : k ∈ keysOf fields := by
  unfold getKeyF at h
  obtain ⟨kv, hfind, rfl⟩ := Option.map_eq_some'.mp h
  have hmem := List.mem_of_find?_eq_some hfind
  have hp := List.find?_some hfind
  simp only [decide_eq_true_eq] at hp
  exact hp ▸ List.mem_map_of_mem _ hmem

theorem getTopLevelDef_obj_eq {fs : List (String × Json)} {d : Json}
    (h : getTopLevelDef (.obj fs) = some d) :
    d = .obj (swapRemoveKey DEFS_KEY fs) := by
  simp only [getTopLevelDef] at h
  split at h
  · exact (Option.some.inj h).symm
  · exact absurd h (by simp)

/-- C1 (amended): composition preserves object key order except for the
swap-removal used to strip a sub-document's `$defs` field. Precisely:
(1) the reference walker preserves the container skeleton, object key lists
included, of every tree it rewrites; (2) a sub-document's top-level content is
its field list with `$defs` swap-removed: the final entry moves into the
stripped field's slot, so the remaining keys keep their order only when
`$defs` is last; (3) a successful composition returns the base's own key list
at top level, the same skeleton everywhere outside the definitions namespace,
and a definitions namespace whose keys are the base's definitions keys
followed by newly contributed names in processing order (an insertion whose
key already exists replaces that entry's value in place). -/
theorem compose_key_order_amended :
    (∀ (f : Reference → Except ComposeError (Option Reference)) (v w : Json),
      modifyReferences f v = .ok w → SameShape v w) ∧
    (∀ (fs : List (String × Json)) (d : Json),
      getTopLevelDef (.obj fs) = some d → d = .obj (swapRemoveKey DEFS_KEY fs)) ∧
    (∀ (base : Json) (subs : List (Option String × Json)) (r : Json),
      compose base subs = .ok r →
      ∃ fields defs0 defsF reg rf,
        base = .obj fields ∧
        getKeyF fields DEFS_KEY = some (.obj defs0) ∧
        processSubs subs defs0 [] = .ok (defsF, reg) ∧
        r = .obj rf ∧
        keysOf rf = keysOf fields ∧
        SameShapeFields (insertKey fields DEFS_KEY (.obj defsF)) rf ∧
        ∃ ks, keysOf defsF = keysOf defs0 ++ ks) := by
  refine ⟨fun f v w h => modifyReferences_shape v w h, ?_, ?_⟩
  · intro fs d h
    exact getTopLevelDef_obj_eq h
  · intro base subs r h
    unfold compose at h
    split at h
    case _ fs hdefs =>
      split at h
      case _ defsF reg hproc =>
        cases base with
        | obj fields =>
          have hget : getKeyF fields DEFS_KEY = some (.obj fs) := hdefs
          have hset : setObjKey (.obj fields) DEFS_KEY (.obj defsF) =
              .obj (insertKey fields DEFS_KEY (.obj defsF)) := rfl
          rw [hset] at h
          have hshape := modifyReferences_shape _ _ h
          obtain ⟨rf, rfl, hsf⟩ := sameShape_obj_inv hshape
          refine ⟨fields, fs, defsF, reg, rf, rfl, hget, hproc, rfl, ?_, hsf,
            processSubs_defs_extends subs fs [] defsF reg hproc⟩
          rw [← sameShapeFields_keys hsf, keysOf_insertKey,
            if_pos (mem_keysOf_of_getKeyF hget)]
        | null => exact absurd hdefs (by simp [Json.getKey])
        | bool b => exact absurd hdefs (by simp [Json.getKey])
        | num n => exact absurd hdefs (by simp [Json.getKey])
        | str s => exact absurd hdefs (by simp [Json.getKey])
        | arr items => exact absurd hdefs (by simp [Json.getKey])
      · exact absurd h (by simp)
    · exact absurd h (by simp)

/-- Counterexample for C1 as stated: stripping `$defs` from a sub-document
whose `$defs` is not the final key swap-removes it, so the merged top-level
definition's keys come out as `$id, extra, type` although the sub-document's
insertion order (with `$defs` dropped) was `$id, type, extra`. -/
theorem compose_reorders_stripped_keys :
    compose (.obj [(DEFS_KEY, .obj [])])
      [(none, .obj [("$id", .str "/s/x"), ("$defs", .obj []),
        ("type", .str "integer"), ("extra", .num 1)])] =
      .ok (.obj [("$defs", .obj [("x", .obj [("$id", .str "/s/x"),
        ("extra", .num 1), ("type", .str "integer")])])]) ∧
    keysOf [("$id", .str "/s/x"), ("extra", .num 1), ("type", .str "integer")] ≠
      (keysOf [("$id", .str "/s/x"), ("$defs", .obj []), ("type", .str "integer"),
        ("extra", .num 1)]).erase DEFS_KEY :=
  ⟨rfl, by decide⟩

/-! ## The reference strings occurring in a tree -/

mutual

/-- Every string the walker will parse as a reference: at each object, the
value of the first `$ref` entry when it is a string, collected depth-first. -/
def refStrings : Json → List String
  | .arr items => refStringsList items
  | .obj fields =>
    (match getKeyF fields REF_KEY with
     | some (.str s) => [s]
     | _ => []) ++ refStringsFields fields
  | _ => []

/-- Reference strings of array elements. -/
def refStringsList : List Json → List String
  | [] => []
  | v :: rest => refStrings v ++ refStringsList rest

/-- Reference strings of object field values. -/
def refStringsFields : List (String × Json) → List String
  | [] => []
  | kv :: rest => refStrings kv.2 ++ refStringsFields rest

end

theorem mem_refStringsList {items : List Json} {x : Json} {s : String}
    (hx : x ∈ items) (hs : s ∈ refStrings x) : s ∈ refStringsList items := by
  induction items with
  | nil => cases hx
  | cons v rest ih =>
    rcases List.mem_cons.mp hx with rfl | hmem
    · exact List.mem_append_left _ hs
    · exact List.mem_append_right _ (ih hmem)

theorem mem_refStringsFields {fields : List (String × Json)} {kv : String × Json}
    {s : String} (hkv : kv ∈ fields) (hs : s ∈ refStrings kv.2) :
    s ∈ refStringsFields fields := by
  induction fields with
  | nil => cases hkv
  | cons kv2 rest ih =>
    rcases List.mem_cons.mp hkv with rfl | hmem
    · exact List.mem_append_left _ hs
    · exact List.mem_append_right _ (ih hmem)

theorem refStrings_obj_head {fields : List (String × Json)} {s : String}
    (h : getKeyF fields REF_KEY = some (.str s)) :
    s ∈ refStrings (.obj fields) := by
  show s ∈ (match getKeyF fields REF_KEY with
    | some (.str s) => [s]
    | _ => []) ++ refStringsFields fields
  rw [h]
  simp

theorem refStrings_obj_tail {fields : List (String × Json)} {s : String}
    (h : s ∈ refStringsFields fields) : s ∈ refStrings (.obj fields) :=
  List.mem_append_right _ h

/-! ## Identity of the walker on trees with only resolved-local references -/

theorem modifyReferences_id
    {f : Reference → Except ComposeError (Option Reference)} :
    ∀ v, (∀ s ∈ refStrings v, ∃ r, parseRef s = .ok r ∧ f r = .ok none) →
    modifyReferences f v = .ok v := by
  intro v
  induction v using Json.myInduction with
  | hnull => intro _; rfl
  | hbool b => intro _; rfl
  | hnum n => intro _; rfl
  | hstr s => intro _; rfl
  | harr items ihm =>
    intro hrefs
    have hlist : ∀ (l : List Json), (∀ x ∈ l, x ∈ items) →
        modifyReferencesList f l = .ok l := by
      intro l
      induction l with
      | nil => intro _; rfl
      | cons v rest ih =>
        intro hsub
        have hv : modifyReferences f v = .ok v :=
          ihm v (hsub v (by simp)) (fun s hs => hrefs s
            (show s ∈ refStringsList items from
              mem_refStringsList (hsub v (by simp)) hs))
        unfold modifyReferencesList
        rw [hv, ih (fun x hx => hsub x (by simp [hx]))]
    have h2 := hlist items (fun x hx => hx)
    unfold modifyReferences
    rw [h2]
  | hobj fields ihm =>
    intro hrefs
    have hrepl : refReplacement f fields = .ok none := by
      unfold refReplacement
      split
      case _ s hget =>
        obtain ⟨r, hr, hf⟩ := hrefs s (refStrings_obj_head hget)
        rw [hr]
        show (match f r with
          | Except.error e => Except.error e
          | Except.ok (some newRef) =>
            Except.ok (some (Json.str (refToString newRef)))
          | Except.ok none => Except.ok none) = Except.ok none
        rw [hf]
      · rfl
    have hfieldsId : ∀ (l : List (String × Json)), (∀ kv ∈ l, kv ∈ fields) →
        ∀ seen, modifyReferencesFields f none seen l = .ok l := by
      intro l
      induction l with
      | nil => intro _ seen; rfl
      | cons kv rest ih =>
        intro hsub seen
        obtain ⟨k, v⟩ := kv
        have hv : modifyReferences f v = .ok v :=
          ihm (k, v) (hsub (k, v) (by simp))
            (fun s hs => hrefs s (refStrings_obj_tail
              (mem_refStringsFields (hsub (k, v) (by simp)) hs)))
        unfold modifyReferencesFields
        split
        · split
          case _ s =>
            rw [ih (fun kv hkv => hsub kv (by simp [hkv])) true]
            rfl
          case _ =>
            rw [hv, ih (fun kv hkv => hsub kv (by simp [hkv])) true]
        · rw [hv, ih (fun kv hkv => hsub kv (by simp [hkv])) seen]
    have h2 := hfieldsId fields (fun kv hkv => hkv) false
    unfold modifyReferences
    rw [hrepl]
    show (match modifyReferencesFields f none false fields with
      | Except.ok gs => Except.ok (Json.obj gs)
      | Except.error e => Except.error e) = Except.ok (Json.obj fields)
    rw [h2]

theorem getKeyF_cons (k1 : String) (v1 : Json) (rest : List (String × Json))
    (k : String) :
    getKeyF ((k1, v1) :: rest) k = if k1 = k then some v1 else getKeyF rest k := by
  unfold getKeyF
  by_cases hk : k1 = k
  · simp [List.find?_cons, hk]
  · simp [List.find?_cons, hk]

theorem insertKey_self : ∀ {fields : List (String × Json)} {k : String}
    {v : Json}, getKeyF fields k = some v → insertKey fields k v = fields := by
  intro fields
  induction fields with
  | nil => intro k v h; simp [getKeyF] at h
  | cons kv rest ih =>
    intro k v h
    obtain ⟨k1, v1⟩ := kv
    rw [getKeyF_cons] at h
    by_cases hk : k1 = k
    · rw [if_pos hk] at h
      obtain rfl := Option.some.inj h
      simp [insertKey, hk]
    · rw [if_neg hk] at h
      simp [insertKey, hk, ih h]

/-- C7: a base document carrying a `$defs` object and only local
(fragment-only) references composes with the empty sub-document list to
exactly itself: identical values and identical key order. -/
theorem compose_empty_idempotent (base : Json) (defs0 : List (String × Json))
    (hdefs : base.getKey DEFS_KEY = some (.obj defs0))
    (hfrag : ∀ s ∈ refStrings base, ∃ fn, parseRef s = .ok (.fragmentOnly fn)) :
    compose base [] = .ok base := by
  cases base with
  | obj fields =>
    have hget : getKeyF fields DEFS_KEY = some (.obj defs0) := hdefs
    have hresult : setObjKey (.obj fields) DEFS_KEY (.obj defs0) = .obj fields := by
      show Json.obj (insertKey fields DEFS_KEY (.obj defs0)) = .obj fields
      rw [insertKey_self hget]
    unfold compose
    rw [show Json.getKey (.obj fields) DEFS_KEY = some (.obj defs0) from hget]
    show modifyReferences (baseTransform [])
      (setObjKey (.obj fields) DEFS_KEY (.obj defs0)) = .ok (.obj fields)
    rw [hresult]
    exact modifyReferences_id _ (fun s hs => by
      obtain ⟨fn, hfn⟩ := hfrag s hs
      exact ⟨.fragmentOnly fn, hfn, rfl⟩)
  | null => exact absurd hdefs (by simp [Json.getKey])
  | bool b => exact absurd hdefs (by simp [Json.getKey])
  | num n => exact absurd hdefs (by simp [Json.getKey])
  | str s => exact absurd hdefs (by simp [Json.getKey])
  | arr items => exact absurd hdefs (by simp [Json.getKey])

/-- Witness for C7: a base with one local reference and one definition. -/
theorem compose_empty_idempotent_witness :
    compose (.obj [("a", .obj [("$ref", .str "#/$defs/x")]),
      ("$defs", .obj [("x", .obj [("type", .str "integer")])])]) [] =
      .ok (.obj [("a", .obj [("$ref", .str "#/$defs/x")]),
        ("$defs", .obj [("x", .obj [("type", .str "integer")])])]) :=
  compose_empty_idempotent _ [("x", .obj [("type", .str "integer")])] rfl
    (fun s hs => by
      have hr : refStrings (.obj [("a", .obj [("$ref", .str "#/$defs/x")]),
        ("$defs", .obj [("x", .obj [("type", .str "integer")])])]) =
        ["#/$defs/x"] := rfl
      rw [hr] at hs
      simp only [List.mem_singleton] at hs
      subst hs
      exact ⟨"x", rfl⟩)

/-! ## Success and failure characterization of the walker -/

theorem refReplacement_err
    {f : Reference → Except ComposeError (Option Reference)}
    {fields : List (String × Json)} {e : ComposeError}
    (h : refReplacement f fields = .error e) :
    (∃ s pe, getKeyF fields REF_KEY = some (.str s) ∧ parseRef s = .error pe ∧
      e = .invalidRef pe) ∨
    (∃ s r, getKeyF fields REF_KEY = some (.str s) ∧ parseRef s = .ok r ∧
      f r = .error e) := by
  unfold refReplacement at h
  split at h
  case _ s hget =>
    split at h
    case _ pe hpe =>
      exact Or.inl ⟨s, pe, hget, hpe, (Except.error.inj h).symm⟩
    case _ r hr =>
      split at h
      case _ e2 hf =>
        exact Or.inr ⟨s, r, hget, hr, hf.trans (congrArg Except.error
          (Except.error.inj h))⟩
      · exact absurd h (by simp)
      · exact absurd h (by simp)
  · exact absurd h (by simp)

theorem refReplacement_ok_of
    {f : Reference → Except ComposeError (Option Reference)}
    {fields : List (String × Json)}
    (hres : ∀ s, getKeyF fields REF_KEY = some (.str s) →
      ∃ r, parseRef s = .ok r ∧ ∃ o, f r = .ok o) :
    ∃ repl, refReplacement f fields = .ok repl ∧
      (repl = none ∨ ∃ t, repl = some (.str t)) := by
  unfold refReplacement
  split
  case _ s hget =>
    obtain ⟨r, hr, o, ho⟩ := hres s hget
    rw [hr]
    cases o with
    | none =>
      refine ⟨none, ?_, Or.inl rfl⟩
      show (match f r with
        | Except.error e => Except.error e
        | Except.ok (some newRef) =>
          Except.ok (some (Json.str (refToString newRef)))
        | Except.ok none => Except.ok none) = Except.ok none
      rw [ho]
    | some newRef =>
      refine ⟨some (.str (refToString newRef)), ?_, Or.inr ⟨_, rfl⟩⟩
      show (match f r with
        | Except.error e => Except.error e
        | Except.ok (some newRef) =>
          Except.ok (some (Json.str (refToString newRef)))
        | Except.ok none => Except.ok none) =
          Except.ok (some (Json.str (refToString newRef)))
      rw [ho]
  · exact ⟨none, rfl, Or.inl rfl⟩

theorem refReplacement_ok_head
    {f : Reference → Except ComposeError (Option Reference)}
    {fields : List (String × Json)} {repl : Option Json}
    (h : refReplacement f fields = .ok repl) :
    ∀ s, getKeyF fields REF_KEY = some (.str s) →
      ∃ r, parseRef s = .ok r ∧ ∃ o, f r = .ok o := by
  intro s hget
  unfold refReplacement at h
  rw [hget] at h
  have h2 : (match parseRef s with
    | Except.error e => Except.error (ComposeError.invalidRef e)
    | Except.ok r =>
      match f r with
      | Except.error e => Except.error e
      | Except.ok (some newRef) =>
        Except.ok (some (Json.str (refToString newRef)))
      | Except.ok none => Except.ok none) = Except.ok repl := h
  clear h
  split at h2
  · exact absurd h2 (by simp)
  case _ r hr =>
    split at h2
    · exact absurd h2 (by simp)
    case _ newRef hf => exact ⟨r, hr, some newRef, hf⟩
    case _ hf => exact ⟨r, hr, none, hf⟩

/-- The transform resolves a reference string: it parses, and the transform
accepts the parsed reference. -/
def Resolves (f : Reference → Except ComposeError (Option Reference))
    (s : String) : Prop :=
  ∃ r, parseRef s = .ok r ∧ ∃ o, f r = .ok o

theorem refStrings_obj_cases {fields : List (String × Json)} {s : String}
    (hs : s ∈ refStrings (.obj fields)) :
    getKeyF fields REF_KEY = some (.str s) ∨ s ∈ refStringsFields fields := by
  have hs2 : s ∈ (match getKeyF fields REF_KEY with
      | some (.str t) => [t]
      | _ => []) ++ refStringsFields fields := hs
  rcases List.mem_append.mp hs2 with h1 | h2
  · left
    split at h1
    case _ t hget =>
      simp only [List.mem_singleton] at h1
      subst h1
      exact hget
    · cases h1
  · exact Or.inr h2

theorem modifyReferencesList_ok_all
    {f : Reference → Except ComposeError (Option Reference)} :
    ∀ (items : List Json) (ys : List Json),
      (∀ v ∈ items, ∀ w, modifyReferences f v = .ok w →
        ∀ s ∈ refStrings v, Resolves f s) →
      modifyReferencesList f items = .ok ys →
      ∀ s ∈ refStringsList items, Resolves f s := by
  intro items
  induction items with
  | nil => intro ys _ _ s hs; cases hs
  | cons v rest ih =>
    intro ys hmem h s hs
    unfold modifyReferencesList at h
    split at h
    case _ w hv =>
      split at h
      case _ ys2 hrest =>
        rcases List.mem_append.mp hs with h1 | h2
        · exact hmem v (by simp) w hv s h1
        · exact ih ys2 (fun x hx => hmem x (by simp [hx])) hrest s h2
      · exact absurd h (by simp)
    · exact absurd h (by simp)

theorem modifyReferencesFields_ok_all
    {f : Reference → Except ComposeError (Option Reference)} :
    ∀ (l : List (String × Json)) (repl : Option Json) (seen : Bool)
      (gs : List (String × Json)),
      (∀ kv ∈ l, ∀ w, modifyReferences f kv.2 = .ok w →
        ∀ s ∈ refStrings kv.2, Resolves f s) →
      modifyReferencesFields f repl seen l = .ok gs →
      ∀ s ∈ refStringsFields l, Resolves f s := by
  intro l
  induction l with
  | nil => intro repl seen gs _ _ s hs; cases hs
  | cons kv rest ih =>
    intro repl seen gs hmem h s hs
    obtain ⟨k, v⟩ := kv
    rcases List.mem_append.mp hs with h1 | h2
    all_goals unfold modifyReferencesFields at h
    · split at h
      · split at h
        case _ t =>
          exact absurd h1 (by simp [refStrings])
        · split at h
          case _ w hv =>
            split at h
            · exact hmem (k, v) (by simp) w hv s h1
            · exact absurd h (by simp)
          · exact absurd h (by simp)
      · split at h
        case _ w hv =>
          split at h
          · exact hmem (k, v) (by simp) w hv s h1
          · exact absurd h (by simp)
        · exact absurd h (by simp)
    · split at h
      · split at h
        case _ t =>
          split at h
          case _ gs2 hrest =>
            exact ih repl true gs2 (fun x hx => hmem x (by simp [hx])) hrest s h2
          · exact absurd h (by simp)
        · split at h
          case _ w hv =>
            split at h
            case _ gs2 hrest =>
              exact ih repl true gs2 (fun x hx => hmem x (by simp [hx])) hrest s h2
            · exact absurd h (by simp)
          · exact absurd h (by simp)
      · split at h
        case _ w hv =>
          split at h
          case _ gs2 hrest =>
            exact ih repl seen gs2 (fun x hx => hmem x (by simp [hx])) hrest s h2
          · exact absurd h (by simp)
        · exact absurd h (by simp)

/-- A successful walk resolved every reference string in the tree. -/
theorem modifyReferences_ok_all
    {f : Reference → Except ComposeError (Option Reference)} :
    ∀ (v : Json) (w : Json), modifyReferences f v = .ok w →
      ∀ s ∈ refStrings v, Resolves f s := by
  intro v
  induction v using Json.myInduction with
  | hnull => intro w h s hs; cases hs
  | hbool b => intro w h s hs; cases hs
  | hnum n => intro w h s hs; cases hs
  | hstr t => intro w h s hs; cases hs
  | harr items ihm =>
    intro w h s hs
    unfold modifyReferences at h
    split at h
    case _ ys hl => exact modifyReferencesList_ok_all items ys ihm hl s hs
    · exact absurd h (by simp)
  | hobj fields ihm =>
    intro w h s hs
    unfold modifyReferences at h
    split at h
    case _ repl hr =>
      split at h
      case _ gs hf =>
        rcases refStrings_obj_cases hs with hhead | htail
        · exact refReplacement_ok_head hr s hhead
        · exact modifyReferencesFields_ok_all fields repl false gs ihm hf s htail
      · exact absurd h (by simp)
    · exact absurd h (by simp)

theorem modifyReferencesList_err_all
    {f : Reference → Except ComposeError (Option Reference)} :
    ∀ (items : List Json) (e : ComposeError),
      (∀ v ∈ items, ∀ e2, modifyReferences f v = .error e2 →
        (∃ s ∈ refStrings v, ∃ pe, parseRef s = .error pe ∧ e2 = .invalidRef pe) ∨
        (∃ s ∈ refStrings v, ∃ r, parseRef s = .ok r ∧ f r = .error e2)) →
      modifyReferencesList f items = .error e →
      (∃ s ∈ refStringsList items, ∃ pe, parseRef s = .error pe ∧
        e = .invalidRef pe) ∨
      (∃ s ∈ refStringsList items, ∃ r, parseRef s = .ok r ∧ f r = .error e) := by
  intro items
  induction items with
  | nil =>
    intro e _ h
    exact absurd h (by simp [modifyReferencesList])
  | cons v rest ih =>
    intro e hmem h
    unfold modifyReferencesList at h
    split at h
    case _ w hv =>
      split at h
      case _ ys hrest => exact absurd h (by simp)
      case _ e2 hrest =>
        obtain rfl := Except.error.inj h
        rcases ih e2 (fun x hx => hmem x (by simp [hx])) hrest with
          ⟨s, hs, pe, hpe, he⟩ | ⟨s, hs, r, hr, hf⟩
        · exact Or.inl ⟨s, List.mem_append_right _ hs, pe, hpe, he⟩
        · exact Or.inr ⟨s, List.mem_append_right _ hs, r, hr, hf⟩
    case _ e2 hv =>
      obtain rfl := Except.error.inj h
      rcases hmem v (by simp) e2 hv with
        ⟨s, hs, pe, hpe, he⟩ | ⟨s, hs, r, hr, hf⟩
      · exact Or.inl ⟨s, List.mem_append_left _ hs, pe, hpe, he⟩
      · exact Or.inr ⟨s, List.mem_append_left _ hs, r, hr, hf⟩

theorem modifyReferencesFields_err_all
    {f : Reference → Except ComposeError (Option Reference)} :
    ∀ (l : List (String × Json)) (repl : Option Json) (seen : Bool)
      (e : ComposeError),
      (∀ kv ∈ l, ∀ e2, modifyReferences f kv.2 = .error e2 →
        (∃ s ∈ refStrings kv.2, ∃ pe, parseRef s = .error pe ∧
          e2 = .invalidRef pe) ∨
        (∃ s ∈ refStrings kv.2, ∃ r, parseRef s = .ok r ∧ f r = .error e2)) →
      modifyReferencesFields f repl seen l = .error e →
      (∃ s ∈ refStringsFields l, ∃ pe, parseRef s = .error pe ∧
        e = .invalidRef pe) ∨
      (∃ s ∈ refStringsFields l, ∃ r, parseRef s = .ok r ∧ f r = .error e) := by
  intro l
  induction l with
  | nil =>
    intro repl seen e _ h
    exact absurd h (by simp [modifyReferencesFields])
  | cons kv rest ih =>
    intro repl seen e hmem h
    obtain ⟨k, v⟩ := kv
    have hrestmem : ∀ kv ∈ rest, ∀ e2, modifyReferences f kv.2 = .error e2 →
        (∃ s ∈ refStrings kv.2, ∃ pe, parseRef s = .error pe ∧
          e2 = .invalidRef pe) ∨
        (∃ s ∈ refStrings kv.2, ∃ r, parseRef s = .ok r ∧ f r = .error e2) :=
      fun x hx => hmem x (by simp [hx])
    unfold modifyReferencesFields at h
    split at h
    · split at h
      case _ t =>
        split at h
        case _ gs hrest => exact absurd h (by simp)
        case _ e2 hrest =>
          obtain rfl := Except.error.inj h
          rcases ih repl true e2 hrestmem hrest with
            ⟨s, hs, rest1⟩ | ⟨s, hs, rest2⟩
          · exact Or.inl ⟨s, List.mem_append_right _ hs, rest1⟩
          · exact Or.inr ⟨s, List.mem_append_right _ hs, rest2⟩
      · split at h
        case _ w hv =>
          split at h
          case _ gs hrest => exact absurd h (by simp)
          case _ e2 hrest =>
            obtain rfl := Except.error.inj h
            rcases ih repl true e2 hrestmem hrest with
              ⟨s, hs, rest1⟩ | ⟨s, hs, rest2⟩
            · exact Or.inl ⟨s, List.mem_append_right _ hs, rest1⟩
            · exact Or.inr ⟨s, List.mem_append_right _ hs, rest2⟩
        case _ e2 hv =>
          obtain rfl := Except.error.inj h
          rcases hmem (k, v) (by simp) e2 hv with
            ⟨s, hs, rest1⟩ | ⟨s, hs, rest2⟩
          · exact Or.inl ⟨s, List.mem_append_left _ hs, rest1⟩
          · exact Or.inr ⟨s, List.mem_append_left _ hs, rest2⟩
    · split at h
      case _ w hv =>
        split at h
        case _ gs hrest => exact absurd h (by simp)
        case _ e2 hrest =>
          obtain rfl := Except.error.inj h
          rcases ih repl seen e2 hrestmem hrest with
            ⟨s, hs, rest1⟩ | ⟨s, hs, rest2⟩
          · exact Or.inl ⟨s, List.mem_append_right _ hs, rest1⟩
          · exact Or.inr ⟨s, List.mem_append_right _ hs, rest2⟩
      case _ e2 hv =>
        obtain rfl := Except.error.inj h
        rcases hmem (k, v) (by simp) e2 hv with
          ⟨s, hs, rest1⟩ | ⟨s, hs, rest2⟩
        · exact Or.inl ⟨s, List.mem_append_left _ hs, rest1⟩
        · exact Or.inr ⟨s, List.mem_append_left _ hs, rest2⟩

/-- Every walker failure is either a reference-string parse failure
(`InvalidRef`) or a failure of the transform on a parsed reference string of
the tree. -/
theorem modifyReferences_err_all
    {f : Reference → Except ComposeError (Option Reference)} :
    ∀ (v : Json) (e : ComposeError), modifyReferences f v = .error e →
      (∃ s ∈ refStrings v, ∃ pe, parseRef s = .error pe ∧ e = .invalidRef pe) ∨
      (∃ s ∈ refStrings v, ∃ r, parseRef s = .ok r ∧ f r = .error e) := by
  intro v
  induction v using Json.myInduction with
  | hnull => intro e h; exact absurd h (by simp [modifyReferences])
  | hbool b => intro e h; exact absurd h (by simp [modifyReferences])
  | hnum n => intro e h; exact absurd h (by simp [modifyReferences])
  | hstr t => intro e h; exact absurd h (by simp [modifyReferences])
  | harr items ihm =>
    intro e h
    unfold modifyReferences at h
    split at h
    case _ ys hl => exact absurd h (by simp)
    case _ e2 hl =>
      obtain rfl := Except.error.inj h
      exact modifyReferencesList_err_all items e2 ihm hl
  | hobj fields ihm =>
    intro e h
    unfold modifyReferences at h
    split at h
    case _ repl hr =>
      split at h
      case _ gs hf => exact absurd h (by simp)
      case _ e2 hf =>
        obtain rfl := Except.error.inj h
        rcases modifyReferencesFields_err_all fields repl false e2 ihm hf with
          ⟨s, hs, rest1⟩ | ⟨s, hs, rest2⟩
        · exact Or.inl ⟨s, refStrings_obj_tail hs, rest1⟩
        · exact Or.inr ⟨s, refStrings_obj_tail hs, rest2⟩
    case _ e2 hr =>
      obtain rfl := Except.error.inj h
      rcases refReplacement_err hr with
        ⟨s, pe, hget, hpe, he⟩ | ⟨s, r, hget, hr2, hf⟩
      · exact Or.inl ⟨s, refStrings_obj_head hget, pe, hpe, he⟩
      · exact Or.inr ⟨s, refStrings_obj_head hget, r, hr2, hf⟩

theorem baseTransform_err_shape {reg : List (String × Option String)}
    {r : Reference} {e : ComposeError} (h : baseTransform reg r = .error e) :
    ∃ t, e = .invalidId t := by
  unfold baseTransform at h
  split at h
  · exact absurd h (by simp)
  · split at h
    · exact ⟨_, (Except.error.inj h).symm⟩
    · exact absurd h (by simp)

theorem baseTransform_unregistered {reg : List (String × Option String)}
    {r : Reference} {p : String}
    (hp : r.path = some p) (hreg : registryGet reg p = none) :
    baseTransform reg r = .error (.invalidId (refToString r)) := by
  unfold baseTransform
  rw [hp]
  show (match registryGet reg p with
    | none => Except.error (ComposeError.invalidId (refToString r))
    | some pfx =>
      Except.ok (some (Reference.fragmentOnly ((pfx.getD "") ++ r.name)))) =
    Except.error (ComposeError.invalidId (refToString r))
  rw [hreg]

/-- C4: in the final rewrite of the base document, a reference carrying a
path whose path-only identifier is registered by no sub-document makes
`compose` fail with `InvalidId`, provided every reference string of the
merged document parses (so no earlier `InvalidRef` failure preempts it). -/
theorem compose_unresolved_invalidId
    (base : Json) (subs : List (Option String × Json))
    (fields defs0 defsF : List (String × Json))
    (reg : List (String × Option String))
    (hbase : base = .obj fields)
    (hdefs : getKeyF fields DEFS_KEY = some (.obj defs0))
    (hproc : processSubs subs defs0 [] = .ok (defsF, reg))
    (hparse : ∀ s ∈ refStrings (.obj (insertKey fields DEFS_KEY (.obj defsF))),
      ∃ r, parseRef s = .ok r)
    (hunres : ∃ s ∈ refStrings (.obj (insertKey fields DEFS_KEY (.obj defsF))),
      ∃ r p, parseRef s = .ok r ∧ r.path = some p ∧ registryGet reg p = none) :
    ∃ t, compose base subs = .error (.invalidId t) := by
  subst hbase
  have hcompose : compose (.obj fields) subs =
      modifyReferences (baseTransform reg)
        (.obj (insertKey fields DEFS_KEY (.obj defsF))) := by
    unfold compose
    rw [show Json.getKey (.obj fields) DEFS_KEY = some (.obj defs0) from hdefs]
    show (match processSubs subs defs0 [] with
      | Except.ok (defs, reg) =>
        modifyReferences (baseTransform reg)
          (setObjKey (.obj fields) DEFS_KEY (.obj defs))
      | Except.error e => Except.error e) =
      modifyReferences (baseTransform reg)
        (.obj (insertKey fields DEFS_KEY (.obj defsF)))
    rw [hproc]
    rfl
  rw [hcompose]
  cases hres : modifyReferences (baseTransform reg)
      (.obj (insertKey fields DEFS_KEY (.obj defsF))) with
  | ok w =>
    obtain ⟨s, hs, r, p, hr, hp, hreg⟩ := hunres
    obtain ⟨r2, hr2, o, ho⟩ := modifyReferences_ok_all _ w hres s hs
    rw [hr] at hr2
    obtain rfl := Except.ok.inj hr2
    rw [baseTransform_unregistered hp hreg] at ho
    exact absurd ho (by simp)
  | error e =>
    rcases modifyReferences_err_all _ e hres with
      ⟨s, hs, pe, hpe, he⟩ | ⟨s, hs, r, hr, hf⟩
    · obtain ⟨r', hr'⟩ := hparse s hs
      rw [hpe] at hr'
      exact absurd hr' (by simp)
    · obtain ⟨t, rfl⟩ := baseTransform_err_shape hf
      exact ⟨t, rfl⟩

/-- Witness for C4: a base referencing `/a/b/c` with no sub-documents. -/
theorem compose_unresolved_invalidId_witness :
    ∃ t, compose (.obj [("$ref", .str "/a/b/c"), ("$defs", .obj [])]) [] =
      .error (.invalidId t) :=
  compose_unresolved_invalidId
    (.obj [("$ref", .str "/a/b/c"), ("$defs", .obj [])]) []
    [("$ref", .str "/a/b/c"), ("$defs", .obj [])] [] [] []
    rfl rfl rfl
    (fun s hs => by
      have hr : refStrings (.obj (insertKey
          [("$ref", Json.str "/a/b/c"), ("$defs", Json.obj [])]
          DEFS_KEY (.obj []))) = ["/a/b/c"] := rfl
      rw [hr] at hs
      simp only [List.mem_singleton] at hs
      subst hs
      exact ⟨.pathOnly ["a", "b"] "c", rfl⟩)
    ⟨"/a/b/c",
      show "/a/b/c" ∈ refStrings (.obj (insertKey
        [("$ref", Json.str "/a/b/c"), ("$defs", Json.obj [])]
        DEFS_KEY (.obj []))) from List.mem_singleton.mpr rfl,
      .pathOnly ["a", "b"] "c", "/a/b/c", rfl, rfl, rfl⟩

/-- Witness for the amended C1, exercising all three conjuncts at concrete
inputs: a walker run, a stripped sub-document, and a full composition. -/
theorem compose_key_order_amended_witness :
    SameShape (.obj [("a", .num 1)]) (.obj [("a", .num 1)]) ∧
    Json.obj [("t", .num 1)] =
      .obj (swapRemoveKey DEFS_KEY [("t", .num 1)]) ∧
    (∃ fields defs0 defsF reg rf,
      (Json.obj [(DEFS_KEY, .obj [])]) = .obj fields ∧
      getKeyF fields DEFS_KEY = some (.obj defs0) ∧
      processSubs [(none, .obj [("$id", .str "/s/x"), ("$defs", .obj []),
        ("type", .str "integer"), ("extra", .num 1)])] defs0 [] =
        .ok (defsF, reg) ∧
      (Json.obj [("$defs", .obj [("x", .obj [("$id", .str "/s/x"),
        ("extra", .num 1), ("type", .str "integer")])])]) = .obj rf ∧
      keysOf rf = keysOf fields ∧
      SameShapeFields (insertKey fields DEFS_KEY (.obj defsF)) rf ∧
      ∃ ks, keysOf defsF = keysOf defs0 ++ ks) :=
  ⟨compose_key_order_amended.1 (fun _ => .ok none) (.obj [("a", .num 1)])
      (.obj [("a", .num 1)]) rfl,
    compose_key_order_amended.2.1 [("t", .num 1)] (.obj [("t", .num 1)]) rfl,
    compose_key_order_amended.2.2 (.obj [(DEFS_KEY, .obj [])])
      [(none, .obj [("$id", .str "/s/x"), ("$defs", .obj []),
        ("type", .str "integer"), ("extra", .num 1)])]
      (.obj [("$defs", .obj [("x", .obj [("$id", .str "/s/x"),
        ("extra", .num 1), ("type", .str "integer")])])]) rfl⟩

/-! ## The sub-document rewrite stage as a total map (claim C5) -/

/-- Modelled from the spec: the promotion of a single reference string during
the sub-document rewrite — a `FragmentOnly` reference becomes a `Both`
reference anchored at the sub-document's own parsed identifier; any other
shape is left untouched. -/
def promoteStr (pathPre : List String) (pathName : String) (s : String) : Json :=
  match parseRef s with
  | .ok (.fragmentOnly fn) => .str (refToString (.both pathPre pathName fn))
  | _ => .str s

mutual

/-- Modelled from the spec: the sub-document rewrite stage as a pure map —
each object's first `$ref` string is promoted by `promoteStr`, everything
else is copied. -/
def promoteRefs (pathPre : List String) (pathName : String) : Json → Json
  | .arr items => .arr (promoteRefsList pathPre pathName items)
  | .obj fields => .obj (promoteRefsFields pathPre pathName false fields)
  | v => v

/-- Array part of `promoteRefs`. -/
def promoteRefsList (pathPre : List String) (pathName : String) :
    List Json → List Json
  | [] => []
  | v :: rest => promoteRefs pathPre pathName v ::
      promoteRefsList pathPre pathName rest

/-- Field part of `promoteRefs`; `seen` mirrors the walker's flag. -/
def promoteRefsFields (pathPre : List String) (pathName : String) :
    Bool → List (String × Json) → List (String × Json)
  | _, [] => []
  | seen, (k, v) :: rest =>
    if ¬ seen ∧ k = REF_KEY then
      match v with
      | .str s => (k, promoteStr pathPre pathName s) ::
          promoteRefsFields pathPre pathName true rest
      | _ => (k, promoteRefs pathPre pathName v) ::
          promoteRefsFields pathPre pathName true rest
    else (k, promoteRefs pathPre pathName v) ::
        promoteRefsFields pathPre pathName seen rest

end

/-- C5: the rewrite applied inside each sub-document equals the pure
promotion map whenever every reference string of the sub-document parses:
each `FragmentOnly` reference becomes the `Both` reference anchored at the
sub-document's own identifier, and every other reference is left unchanged. -/
theorem subRewrite_promotes (pathPre : List String) (pathName : String) :
    ∀ v, (∀ s ∈ refStrings v, ∃ r, parseRef s = .ok r) →
    modifyReferences (subTransform pathPre pathName) v =
      .ok (promoteRefs pathPre pathName v) := by
  intro v
  induction v using Json.myInduction with
  | hnull => intro _; rfl
  | hbool b => intro _; rfl
  | hnum n => intro _; rfl
  | hstr s => intro _; rfl
  | harr items ihm =>
    intro hrefs
    have hlist : ∀ (l : List Json), (∀ x ∈ l, x ∈ items) →
        modifyReferencesList (subTransform pathPre pathName) l =
          .ok (promoteRefsList pathPre pathName l) := by
      intro l
      induction l with
      | nil => intro _; rfl
      | cons x rest ih =>
        intro hsub
        have hx := ihm x (hsub x (by simp)) (fun s hs => hrefs s
          (show s ∈ refStringsList items from
            mem_refStringsList (hsub x (by simp)) hs))
        unfold modifyReferencesList
        rw [hx, ih (fun y hy => hsub y (by simp [hy]))]
        rfl
    have h2 := hlist items (fun x hx => hx)
    unfold modifyReferences
    rw [h2]
    rfl
  | hobj fields ihm =>
    intro hrefs
    have hhead : ∀ s, getKeyF fields REF_KEY = some (.str s) →
        ∃ r, parseRef s = .ok r ∧ ∃ o, subTransform pathPre pathName r = .ok o :=
      fun s hget => by
        obtain ⟨r, hr⟩ := hrefs s (refStrings_obj_head hget)
        refine ⟨r, hr, ?_⟩
        cases r with
        | fragmentOnly fn => exact ⟨some (.both pathPre pathName fn), rfl⟩
        | pathOnly a b => exact ⟨none, rfl⟩
        | both a b c => exact ⟨none, rfl⟩
    obtain ⟨repl, hrepl, hreplshape⟩ := refReplacement_ok_of hhead
    have hgetD : ∀ s, getKeyF fields REF_KEY = some (.str s) →
        repl.getD (.str s) = promoteStr pathPre pathName s := by
      intro s hget
      unfold refReplacement at hrepl
      rw [hget] at hrepl
      have h2 : (match parseRef s with
        | Except.error e => Except.error (ComposeError.invalidRef e)
        | Except.ok r =>
          match subTransform pathPre pathName r with
          | Except.error e => Except.error e
          | Except.ok (some newRef) =>
            Except.ok (some (Json.str (refToString newRef)))
          | Except.ok none => Except.ok none) = Except.ok repl := hrepl
      clear hrepl
      split at h2
      · exact absurd h2 (by simp)
      case _ r hr =>
        unfold promoteStr
        rw [hr]
        cases r with
        | fragmentOnly fn =>
          have h3 : (Except.ok (some (Json.str
              (refToString (.both pathPre pathName fn)))) :
              Except ComposeError (Option Json)) = Except.ok repl := h2
          obtain rfl := (Except.ok.inj h3).symm
          rfl
        | pathOnly a b =>
          have h3 : (Except.ok none :
              Except ComposeError (Option Json)) = Except.ok repl := h2
          obtain rfl := (Except.ok.inj h3).symm
          rfl
        | both a b c =>
          have h3 : (Except.ok none :
              Except ComposeError (Option Json)) = Except.ok repl := h2
          obtain rfl := (Except.ok.inj h3).symm
          rfl
    have hwalk : ∀ (l : List (String × Json)) (seen : Bool),
        (∀ kv ∈ l, kv ∈ fields) →
        (seen = false → getKeyF l REF_KEY = getKeyF fields REF_KEY) →
        modifyReferencesFields (subTransform pathPre pathName) repl seen l =
          .ok (promoteRefsFields pathPre pathName seen l) := by
      intro l
      induction l with
      | nil => intro seen _ _; rfl
      | cons kv rest ih =>
        intro seen hsub hinv
        obtain ⟨k, v⟩ := kv
        have hv := ihm (k, v) (hsub (k, v) (by simp))
          (fun s hs => hrefs s (refStrings_obj_tail
            (mem_refStringsFields (hsub (k, v) (by simp)) hs)))
        unfold modifyReferencesFields promoteRefsFields
        by_cases hcond : ¬ seen = true ∧ k = REF_KEY
        · rw [if_pos hcond, if_pos hcond]
          obtain ⟨hseen, rfl⟩ := hcond
          cases v with
          | str s =>
            have hget : getKeyF fields REF_KEY = some (.str s) := by
              rw [← hinv (by simpa using hseen), getKeyF_cons, if_pos rfl]
            have hrest := ih true (fun x hx => hsub x (by simp [hx])) (by simp)
            show (match modifyReferencesFields (subTransform pathPre pathName)
                repl true rest with
              | Except.ok gs =>
                Except.ok ((REF_KEY, repl.getD (Json.str s)) :: gs)
              | Except.error e => Except.error e) =
              Except.ok ((REF_KEY, promoteStr pathPre pathName s) ::
                promoteRefsFields pathPre pathName true rest)
            rw [hrest, hgetD s hget]
          | null =>
            rw [hv, ih true (fun x hx => hsub x (by simp [hx])) (by simp)]
          | bool b =>
            rw [hv, ih true (fun x hx => hsub x (by simp [hx])) (by simp)]
          | num n =>
            rw [hv, ih true (fun x hx => hsub x (by simp [hx])) (by simp)]
          | arr items2 =>
            rw [hv, ih true (fun x hx => hsub x (by simp [hx])) (by simp)]
          | obj fields2 =>
            rw [hv, ih true (fun x hx => hsub x (by simp [hx])) (by simp)]
        · rw [if_neg hcond, if_neg hcond]
          have hinv2 : seen = false → getKeyF rest REF_KEY =
              getKeyF fields REF_KEY := by
            intro hseen
            have hk : ¬ k = REF_KEY := by
              intro hk
              exact hcond ⟨by simp [hseen], hk⟩
            rw [← hinv hseen, getKeyF_cons, if_neg hk]
          rw [hv, ih seen (fun x hx => hsub x (by simp [hx])) hinv2]
    have h2 := hwalk fields false (fun kv hkv => hkv) (fun _ => rfl)
    unfold modifyReferences
    rw [hrepl]
    show (match modifyReferencesFields (subTransform pathPre pathName) repl
        false fields with
      | Except.ok gs => Except.ok (Json.obj gs)
      | Except.error e => Except.error e) =
      Except.ok (promoteRefs pathPre pathName (.obj fields))
    rw [h2]
    rfl

/-- Witness for C5: a sub-document holding one local and one absolute
reference; the local one is promoted, the absolute one kept. -/
theorem subRewrite_promotes_witness :
    modifyReferences (subTransform ["schemas"] "qux")
      (.obj [("$ref", .str "#/$defs/oof"),
        ("x", .obj [("$ref", .str "/a/b")])]) =
      .ok (.obj [("$ref", .str "/schemas/qux#/$defs/oof"),
        ("x", .obj [("$ref", .str "/a/b")])]) := by
  have h := subRewrite_promotes ["schemas"] "qux"
    (.obj [("$ref", .str "#/$defs/oof"), ("x", .obj [("$ref", .str "/a/b")])])
    (fun s hs => by
      have hr : refStrings (.obj [("$ref", Json.str "#/$defs/oof"),
        ("x", .obj [("$ref", Json.str "/a/b")])]) =
        ["#/$defs/oof", "/a/b"] := rfl
      rw [hr] at hs
      rcases List.mem_cons.mp hs with rfl | hs2
      · exact ⟨.fragmentOnly "oof", rfl⟩
      · simp only [List.mem_singleton] at hs2
        subst hs2
        exact ⟨.pathOnly ["a"] "b", rfl⟩)
  rw [h]
  rfl

/-! ## Helper lemmas for prefix isolation (claim C6) -/

theorem getKeyF_insertKey_ne {l : List (String × Json)} {k k2 : String}
    {v : Json} (hne : ¬ k = k2) :
    getKeyF (insertKey l k v) k2 = getKeyF l k2 := by
  induction l with
  | nil => simp [insertKey, getKeyF_cons, hne, getKeyF]
  | cons kv rest ih =>
    obtain ⟨k1, v1⟩ := kv
    by_cases hk : k1 = k
    · subst hk
      simp [insertKey, getKeyF_cons, hne]
    · simp only [insertKey, if_neg hk]
      rw [getKeyF_cons, getKeyF_cons, ih]

theorem getKeyF_insertKey_self (l : List (String × Json)) (k : String)
    (v : Json) : getKeyF (insertKey l k v) k = some v := by
  induction l with
  | nil => simp [insertKey, getKeyF_cons]
  | cons kv rest ih =>
    obtain ⟨k1, v1⟩ := kv
    by_cases hk : k1 = k
    · subst hk
      simp [insertKey, getKeyF_cons]
    · simp only [insertKey, if_neg hk]
      rw [getKeyF_cons, if_neg hk, ih]

theorem mem_insertKey {l : List (String × Json)} {k : String} {v : Json}
    {kv : String × Json} (h : kv ∈ insertKey l k v) : kv ∈ l ∨ kv.2 = v := by
  induction l with
  | nil =>
    simp only [insertKey, List.mem_singleton] at h
    subst h
    exact Or.inr rfl
  | cons kv1 rest ih =>
    obtain ⟨k1, v1⟩ := kv1
    by_cases hk : k1 = k
    · subst hk
      simp only [insertKey, if_pos rfl] at h
      rcases List.mem_cons.mp h with rfl | hmem
      · exact Or.inr rfl
      · exact Or.inl (by simp [hmem])
    · simp only [insertKey, if_neg hk] at h
      rcases List.mem_cons.mp h with rfl | hmem
      · exact Or.inl (by simp)
      · rcases ih hmem with h1 | h2
        · exact Or.inl (by simp [h1])
        · exact Or.inr h2

theorem mem_foldl_insert (g : String × Json → String) :
    ∀ (l : List (String × Json)) (acc : List (String × Json))
      (kv : String × Json),
      kv ∈ l.foldl (fun acc kv0 => insertKey acc (g kv0) kv0.2) acc →
      kv ∈ acc ∨ ∃ kv0 ∈ l, kv.2 = kv0.2 := by
  intro l
  induction l with
  | nil => intro acc kv h; exact Or.inl h
  | cons kv1 rest ih =>
    intro acc kv h
    rw [List.foldl_cons] at h
    rcases ih (insertKey acc (g kv1) kv1.2) kv h with h1 | ⟨kv0, hkv0, hv⟩
    · rcases mem_insertKey h1 with h2 | h3
      · exact Or.inl h2
      · exact Or.inr ⟨kv1, by simp, h3⟩
    · exact Or.inr ⟨kv0, by simp [hkv0], hv⟩

theorem mem_swapRemoveKey {l : List (String × Json)} {k : String}
    {kv : String × Json} (h : kv ∈ swapRemoveKey k l) : kv ∈ l := by
  unfold swapRemoveKey at h
  split at h
  · exact h
  · split at h
    · exact h
    case _ last hlast =>
      rcases List.mem_or_eq_of_mem_set h with h1 | h2
      · exact List.dropLast_subset l h1
      · subst h2
        cases l with
        | nil => simp at hlast
        | cons x xs =>
          rw [List.getLast?_eq_getLast _ (by simp)] at hlast
          exact (Option.some.inj hlast) ▸ List.getLast_mem _

theorem getKeyF_mem {l : List (String × Json)} {k : String} {v : Json}
    (h : getKeyF l k = some v) : (k, v) ∈ l := by
  unfold getKeyF at h
  obtain ⟨kv, hfind, rfl⟩ := Option.map_eq_some'.mp h
  have hmem := List.mem_of_find?_eq_some hfind
  have hp := List.find?_some hfind
  simp only [decide_eq_true_eq] at hp
  obtain ⟨k1, v1⟩ := kv
  simp only at hp
  subst hp
  exact hmem

theorem getKeyF_of_mem_nodup {l : List (String × Json)} {k : String} {v : Json}
    (hnd : (keysOf l).Nodup) (h : (k, v) ∈ l) : getKeyF l k = some v := by
  induction l with
  | nil => cases h
  | cons kv1 rest ih =>
    obtain ⟨k1, v1⟩ := kv1
    simp only [keysOf, List.map_cons, List.nodup_cons] at hnd
    rcases List.mem_cons.mp h with heq | hmem
    · obtain ⟨rfl, rfl⟩ := Prod.mk.inj heq.symm
      rw [getKeyF_cons, if_pos rfl]
    · have hk : ¬ k1 = k := by
        intro hk
        subst hk
        exact hnd.1 (List.mem_map_of_mem (fun kv => kv.1) hmem)
      rw [getKeyF_cons, if_neg hk]
      exact ih hnd.2 hmem

theorem refStrings_obj_eq (l : List (String × Json)) :
    refStrings (.obj l) = (match getKeyF l REF_KEY with
      | some (.str s) => [s]
      | _ => []) ++ refStringsFields l :=
  rfl

theorem refStringsFields_nil {l : List (String × Json)}
    (h : ∀ kv ∈ l, refStrings kv.2 = []) : refStringsFields l = [] := by
  induction l with
  | nil => rfl
  | cons kv rest ih =>
    show refStrings kv.2 ++ refStringsFields rest = []
    rw [h kv (by simp), ih (fun x hx => h x (by simp [hx]))]
    rfl

theorem keysOf_foldl_preserve (g : String × Json → String) :
    ∀ (l : List (String × Json)) (acc : List (String × Json)) (k : String),
      k ∈ keysOf acc →
      k ∈ keysOf (l.foldl (fun acc kv0 => insertKey acc (g kv0) kv0.2) acc) := by
  intro l
  induction l with
  | nil => intro acc k h; exact h
  | cons kv1 rest ih =>
    intro acc k h
    rw [List.foldl_cons]
    exact ih _ k ((mem_keysOf_insertKey acc (g kv1) k kv1.2).mpr (Or.inl h))

theorem keysOf_foldl_contrib (g : String × Json → String) :
    ∀ (l : List (String × Json)) (acc : List (String × Json))
      (kv0 : String × Json), kv0 ∈ l →
      g kv0 ∈ keysOf (l.foldl (fun acc kv1 => insertKey acc (g kv1) kv1.2) acc) := by
  intro l
  induction l with
  | nil => intro acc kv0 h; cases h
  | cons kv1 rest ih =>
    intro acc kv0 h
    rw [List.foldl_cons]
    rcases List.mem_cons.mp h with rfl | hmem
    · exact keysOf_foldl_preserve g rest _ (g kv0)
        ((mem_keysOf_insertKey acc (g kv0) (g kv0) kv0.2).mpr (Or.inr rfl))
    · exact ih _ kv0 hmem

theorem mergeSub_preserves_key (defs : List (String × Json)) (pfx : Option String)
    (pathName : String) (newSub : Json) (k : String) (h : k ∈ keysOf defs) :
    k ∈ keysOf (mergeSub defs pfx pathName newSub) := by
  unfold mergeSub
  split
  case _ d h2 =>
    split
    case _ fs hg =>
      exact keysOf_foldl_preserve _ fs _ k
        ((mem_keysOf_insertKey defs ((pfx.getD "") ++ pathName) k d).mpr (Or.inl h))
    case _ =>
      exact (mem_keysOf_insertKey defs ((pfx.getD "") ++ pathName) k d).mpr (Or.inl h)
  case _ =>
    split
    case _ fs hg => exact keysOf_foldl_preserve _ fs _ k h
    case _ => exact h

/-- The definition names one sub-document contributes: its own top-level name
(when it carries content beyond `$id`/`$defs`) followed by its `$defs` entry
keys. -/
def contribKeys (sub : Json) (pathName : String) : List String :=
  (match getTopLevelDef sub with
   | some _ => [pathName]
   | none => []) ++
  (match sub.getKey DEFS_KEY with
   | some (.obj dfs) => keysOf dfs
   | _ => [])

theorem mergeSub_contrib_mem (defs : List (String × Json)) (pfx : Option String)
    (pathName : String) (sub : Json) (k : String)
    (h : k ∈ contribKeys sub pathName) :
    ((pfx.getD "") ++ k) ∈ keysOf (mergeSub defs pfx pathName sub) := by
  unfold contribKeys at h
  unfold mergeSub
  rcases List.mem_append.mp h with h1 | h2
  · split at h1
    case _ d htop =>
      simp only [List.mem_singleton] at h1
      subst h1
      split
      case _ fs hg =>
        exact keysOf_foldl_preserve _ fs _ _
          ((mem_keysOf_insertKey defs ((pfx.getD "") ++ k) _ d).mpr (Or.inr rfl))
      case _ =>
        exact (mem_keysOf_insertKey defs ((pfx.getD "") ++ k) _ d).mpr (Or.inr rfl)
    case _ => cases h1
  · split at h2
    case _ dfs hg =>
      obtain ⟨⟨k0, v0⟩, hmem, rfl⟩ := List.mem_map.mp h2
      split
      case _ d htop =>
        exact keysOf_foldl_contrib (fun kv => (pfx.getD "") ++ kv.1) dfs _
          (k0, v0) hmem
      case _ =>
        exact keysOf_foldl_contrib (fun kv => (pfx.getD "") ++ kv.1) dfs _
          (k0, v0) hmem
    case _ => cases h2

theorem refStrings_obj_nil_parts {l : List (String × Json)}
    (h : refStrings (.obj l) = []) :
    (∀ s, getKeyF l REF_KEY ≠ some (.str s)) ∧ refStringsFields l = [] := by
  rw [refStrings_obj_eq] at h
  obtain ⟨h1, h2⟩ := List.append_eq_nil.mp h
  refine ⟨?_, h2⟩
  intro s hs
  rw [hs] at h1
  exact absurd h1 (by simp)

theorem refStrings_nil_of_fields_nil {l : List (String × Json)}
    {kv : String × Json} (hnil : refStringsFields l = []) (hkv : kv ∈ l) :
    refStrings kv.2 = [] := by
  rw [List.eq_nil_iff_forall_not_mem]
  intro s hs
  have := mem_refStringsFields hkv hs
  rw [hnil] at this
  cases this

theorem refStrings_swapRemoved_nil {subFields : List (String × Json)}
    (hnd : (keysOf subFields).Nodup)
    (hsub : refStrings (.obj subFields) = []) :
    refStrings (.obj (swapRemoveKey DEFS_KEY subFields)) = [] := by
  obtain ⟨hhead, htail⟩ := refStrings_obj_nil_parts hsub
  rw [refStrings_obj_eq]
  have h1 : (match getKeyF (swapRemoveKey DEFS_KEY subFields) REF_KEY with
      | some (.str s) => [s]
      | _ => []) = ([] : List String) := by
    split
    case _ s hg =>
      have hmem := mem_swapRemoveKey (getKeyF_mem hg)
      exact absurd (getKeyF_of_mem_nodup hnd hmem) (hhead s)
    · rfl
  rw [h1]
  rw [refStringsFields_nil (fun kv hkv =>
    refStrings_nil_of_fields_nil htail (mem_swapRemoveKey hkv))]
  rfl

theorem refStringsFields_mem_inv {l : List (String × Json)} {s : String}
    (h : s ∈ refStringsFields l) : ∃ kv ∈ l, s ∈ refStrings kv.2 := by
  induction l with
  | nil => cases h
  | cons kv rest ih =>
    rcases List.mem_append.mp h with h1 | h2
    · exact ⟨kv, by simp, h1⟩
    · obtain ⟨kv2, hkv2, hs2⟩ := ih h2
      exact ⟨kv2, by simp [hkv2], hs2⟩

theorem mem_mergeSub {defs : List (String × Json)} {pfx : Option String}
    {pn : String} {sub : Json} {kv : String × Json}
    (h : kv ∈ mergeSub defs pfx pn sub) :
    kv ∈ defs ∨ (∃ d, getTopLevelDef sub = some d ∧ kv.2 = d) ∨
    (∃ dfs kv0, sub.getKey DEFS_KEY = some (.obj dfs) ∧ kv0 ∈ dfs ∧
      kv.2 = kv0.2) := by
  unfold mergeSub at h
  split at h
  case _ d htop =>
    split at h
    case _ fs hg =>
      rcases mem_foldl_insert _ fs _ kv h with h1 | ⟨kv0, hkv0, hv⟩
      · rcases mem_insertKey h1 with h2 | h3
        · exact Or.inl h2
        · exact Or.inr (Or.inl ⟨d, htop, h3⟩)
      · exact Or.inr (Or.inr ⟨fs, kv0, hg, hkv0, hv⟩)
    case _ =>
      rcases mem_insertKey h with h1 | h2
      · exact Or.inl h1
      · exact Or.inr (Or.inl ⟨d, htop, h2⟩)
  case _ htop =>
    split at h
    case _ fs hg =>
      rcases mem_foldl_insert _ fs _ kv h with h1 | ⟨kv0, hkv0, hv⟩
      · exact Or.inl h1
      · exact Or.inr (Or.inr ⟨fs, kv0, hg, hkv0, hv⟩)
    case _ => exact Or.inl h

theorem subDefs_entry_nil {subFields dfs : List (String × Json)}
    {kv0 : String × Json}
    (hsubnil : refStrings (.obj subFields) = [])
    (hg : Json.getKey (.obj subFields) DEFS_KEY = some (.obj dfs))
    (hkv0 : kv0 ∈ dfs) : refStrings kv0.2 = [] := by
  have hdefsMem : (DEFS_KEY, Json.obj dfs) ∈ subFields := getKeyF_mem hg
  obtain ⟨-, htail⟩ := refStrings_obj_nil_parts hsubnil
  have hdfsnil : refStrings (.obj dfs) = [] :=
    refStrings_nil_of_fields_nil htail hdefsMem
  obtain ⟨-, htail2⟩ := refStrings_obj_nil_parts hdfsnil
  exact refStrings_nil_of_fields_nil htail2 hkv0

theorem mergeSub_refStrings_cases {defs : List (String × Json)}
    {pfx : Option String} {pn : String} {subFields : List (String × Json)}
    {s : String}
    (hnd : (keysOf subFields).Nodup)
    (hsubnil : refStrings (.obj subFields) = [])
    (hdfsobj : ∀ dfs, Json.getKey (.obj subFields) DEFS_KEY = some (.obj dfs) →
      ∀ kv0 ∈ dfs, ∃ fs0, kv0.2 = Json.obj fs0)
    (hs : s ∈ refStrings (.obj (mergeSub defs pfx pn (.obj subFields)))) :
    s ∈ refStrings (.obj defs) ∨ (REF_KEY, Json.str s) ∈ defs := by
  rcases refStrings_obj_cases hs with hhead | htail
  · have hmem := getKeyF_mem hhead
    rcases mem_mergeSub hmem with h1 | ⟨d, htop, hv⟩ | ⟨dfs, kv0, hg, hkv0, hv⟩
    · exact Or.inr h1
    · obtain rfl := getTopLevelDef_obj_eq htop
      exact absurd hv (by simp)
    · obtain ⟨fs0, hfs0⟩ := hdfsobj dfs hg kv0 hkv0
      rw [hfs0] at hv
      exact absurd hv (by simp)
  · obtain ⟨kv, hkv, hsv⟩ := refStringsFields_mem_inv htail
    rcases mem_mergeSub hkv with h1 | ⟨d, htop, hv⟩ | ⟨dfs, kv0, hg, hkv0, hv⟩
    · exact Or.inl (refStrings_obj_tail (mem_refStringsFields h1 hsv))
    · obtain rfl := getTopLevelDef_obj_eq htop
      rw [hv, refStrings_swapRemoved_nil hnd hsubnil] at hsv
      cases hsv
    · rw [hv, subDefs_entry_nil hsubnil hg hkv0] at hsv
      cases hsv

theorem mem_mergeSub_ref {defs : List (String × Json)} {pfx : Option String}
    {pn : String} {subFields : List (String × Json)} {s : String}
    (hdfsobj : ∀ dfs, Json.getKey (.obj subFields) DEFS_KEY = some (.obj dfs) →
      ∀ kv0 ∈ dfs, ∃ fs0, kv0.2 = Json.obj fs0)
    (h : (REF_KEY, Json.str s) ∈ mergeSub defs pfx pn (.obj subFields)) :
    (REF_KEY, Json.str s) ∈ defs := by
  rcases mem_mergeSub h with h1 | ⟨d, htop, hv⟩ | ⟨dfs, kv0, hg, hkv0, hv⟩
  · exact h1
  · obtain rfl := getTopLevelDef_obj_eq htop
    exact absurd hv (by simp)
  · obtain ⟨fs0, hfs0⟩ := hdfsobj dfs hg kv0 hkv0
    rw [hfs0] at hv
    exact absurd hv (by simp)

theorem append_left_ne {p1 p2 k : String} (hne : p1 ≠ p2) :
    p1 ++ k ≠ p2 ++ k := by
  intro h
  apply hne
  have hd := congrArg String.data h
  simp only [String.data_append] at hd
  exact String.ext (List.append_cancel_right hd)

theorem processSub_noRefs {sub : Json} {id pn : String} {pp : List String}
    (hid : getId sub = .ok id)
    (hidp : parseRef id = .ok (.pathOnly pp pn))
    (hnorefs : refStrings sub = []) :
    ∀ defs reg pfx, processSub defs reg pfx sub =
      .ok (mergeSub defs pfx pn sub, (id, pfx) :: reg) := by
  intro defs reg pfx
  have hmod : modifyReferences (subTransform pp pn) sub = .ok sub :=
    modifyReferences_id sub
      (fun s hs => absurd (hnorefs ▸ hs) (List.not_mem_nil s))
  simp only [processSub, hid, hidp, hmod]

theorem refStrings_double_merge
    {defs0 subFields : List (String × Json)} {pn : String}
    {p1 p2 : Option String} {s : String}
    (hnd0 : (keysOf defs0).Nodup)
    (hndsub : (keysOf subFields).Nodup)
    (hsubnil : refStrings (.obj subFields) = [])
    (hdfsobj : ∀ dfs, Json.getKey (.obj subFields) DEFS_KEY = some (.obj dfs) →
      ∀ kv0 ∈ dfs, ∃ fs0, kv0.2 = Json.obj fs0)
    (hs : s ∈ refStrings (.obj
      (mergeSub (mergeSub defs0 p1 pn (.obj subFields)) p2 pn (.obj subFields)))) :
    s ∈ refStrings (.obj defs0) := by
  have hstep2 := mergeSub_refStrings_cases hndsub hsubnil hdfsobj hs
  have hbase : s ∈ refStrings (.obj defs0) ∨ (REF_KEY, Json.str s) ∈ defs0 := by
    rcases hstep2 with h1 | h2
    · exact mergeSub_refStrings_cases hndsub hsubnil hdfsobj h1
    · exact Or.inr (mem_mergeSub_ref hdfsobj h2)
  rcases hbase with h1 | h2
  · exact h1
  · exact refStrings_obj_head (getKeyF_of_mem_nodup hnd0 h2)

/-- C6: composing a base document (with a `$defs` object of distinct keys and
only local-fragment references of its own) with the same reference-free
sub-document listed twice under two different non-empty prefixes succeeds, and
for every definition name the sub-document contributes, the merged definitions
namespace of the composed document holds two distinct, non-colliding entries —
one per prefix — each addressable by its own prefixed name. -/
theorem compose_prefix_isolation
    {fields defs0 subFields : List (String × Json)}
    {id pn : String} {pp : List String} {p1 p2 : String}
    (hdefs : getKeyF fields DEFS_KEY = some (.obj defs0))
    (hnd0 : (keysOf defs0).Nodup)
    (hbaseRefs : ∀ s ∈ refStrings (Json.obj fields),
      ∃ fn, parseRef s = .ok (.fragmentOnly fn))
    (hid : getId (.obj subFields) = .ok id)
    (hidp : parseRef id = .ok (.pathOnly pp pn))
    (hndsub : (keysOf subFields).Nodup)
    (hsubnil : refStrings (.obj subFields) = [])
    (hdfsobj : ∀ dfs, Json.getKey (.obj subFields) DEFS_KEY = some (.obj dfs) →
      ∀ kv0 ∈ dfs, ∃ fs0, kv0.2 = Json.obj fs0)
    (hp1 : p1 ≠ "") (hp2 : p2 ≠ "") (hne : p1 ≠ p2) :
    ∃ defsF : List (String × Json),
      compose (.obj fields)
        [(some p1, .obj subFields), (some p2, .obj subFields)] =
        .ok (.obj (insertKey fields DEFS_KEY (.obj defsF))) ∧
      Json.getKey (.obj (insertKey fields DEFS_KEY (.obj defsF))) DEFS_KEY =
        some (.obj defsF) ∧
      ∀ k ∈ contribKeys (.obj subFields) pn,
        (p1 ++ k) ∈ keysOf defsF ∧ (p2 ++ k) ∈ keysOf defsF ∧
        p1 ++ k ≠ p2 ++ k := by
  have hps := processSub_noRefs hid hidp hsubnil
  refine ⟨mergeSub (mergeSub defs0 (some p1) pn (.obj subFields)) (some p2) pn
    (.obj subFields), ?_, ?_, ?_⟩
  · have h1 := hps defs0 [] (some p1)
    have h2 := hps (mergeSub defs0 (some p1) pn (.obj subFields))
      [(id, some p1)] (some p2)
    have hsubs : processSubs
        [(some p1, .obj subFields), (some p2, .obj subFields)] defs0 [] =
        .ok (mergeSub (mergeSub defs0 (some p1) pn (.obj subFields)) (some p2)
          pn (.obj subFields), [(id, some p2), (id, some p1)]) := by
      simp only [processSubs, h1, h2]
    have hfinal : ∀ s ∈ refStrings (.obj (insertKey fields DEFS_KEY
        (.obj (mergeSub (mergeSub defs0 (some p1) pn (.obj subFields))
          (some p2) pn (.obj subFields))))),
        ∃ r, parseRef s = .ok r ∧
          baseTransform [(id, some p2), (id, some p1)] r = .ok none := by
      intro s hs
      have hfrag : ∃ fn, parseRef s = .ok (.fragmentOnly fn) := by
        rcases refStrings_obj_cases hs with hhead | htail
        · rw [getKeyF_insertKey_ne (by decide)] at hhead
          exact hbaseRefs s (refStrings_obj_head hhead)
        · obtain ⟨kv, hkv, hsv⟩ := refStringsFields_mem_inv htail
          rcases mem_insertKey hkv with hin | hval
          · exact hbaseRefs s (refStrings_obj_tail (mem_refStringsFields hin hsv))
          · rw [hval] at hsv
            have hs0 := refStrings_double_merge hnd0 hndsub hsubnil hdfsobj hsv
            exact hbaseRefs s (refStrings_obj_tail
              (mem_refStringsFields (getKeyF_mem hdefs) hs0))
      obtain ⟨fn, hfn⟩ := hfrag
      exact ⟨.fragmentOnly fn, hfn, rfl⟩
    have hmodid := modifyReferences_id _ hfinal
    simp only [compose, Json.getKey, hdefs, hsubs, setObjKey]
    exact hmodid
  · exact getKeyF_insertKey_self fields DEFS_KEY _
  · intro k hk
    refine ⟨?_, ?_, append_left_ne hne⟩
    · exact mergeSub_preserves_key _ (some p2) pn _ _
        (mergeSub_contrib_mem defs0 (some p1) pn (.obj subFields) k hk)
    · exact mergeSub_contrib_mem _ (some p2) pn (.obj subFields) k hk

/-- Witness for `compose_prefix_isolation`: the sub-document
`{"$id": "/s/x", "type": "integer"}` composed twice under the prefixes
`a_` and `b_`. -/
theorem compose_prefix_isolation_witness :
    ∃ defsF : List (String × Json),
      compose (.obj [("$defs", .obj [])])
        [(some "a_", .obj [("$id", .str "/s/x"), ("type", .str "integer")]),
         (some "b_", .obj [("$id", .str "/s/x"), ("type", .str "integer")])] =
        .ok (.obj (insertKey [("$defs", .obj [])] DEFS_KEY (.obj defsF))) ∧
      Json.getKey (.obj (insertKey [("$defs", .obj [])] DEFS_KEY (.obj defsF)))
        DEFS_KEY = some (.obj defsF) ∧
      ∀ k ∈ contribKeys (.obj [("$id", .str "/s/x"), ("type", .str "integer")])
          "x",
        ("a_" ++ k) ∈ keysOf defsF ∧ ("b_" ++ k) ∈ keysOf defsF ∧
        "a_" ++ k ≠ "b_" ++ k :=
  compose_prefix_isolation rfl (by decide)
    (fun s hs => absurd hs (List.not_mem_nil s)) rfl rfl (by decide) rfl
    (fun dfs hg => nomatch hg) (by decide) (by decide) (by decide)

/-! ## The grammar classification of parse errors

The source regex's `\w` is the regex crate's Unicode-aware word class. The
classification of the parser's outcomes does not depend on exactly which
characters count as word characters — only on the facts that `/` and `#` are
not word characters (ASCII punctuation is excluded from `\w` under every one
of its definitions). The parser is therefore embedded once more with the word
class abstract, and the classification is proved for every word class
excluding those two characters — in particular for the regex crate's `\w`
itself; `isWordChar` is the executable ASCII instance. -/

/-- `segsGo` with the word class abstract. -/
def segsGoW (w : Char → Bool) (acc : List Char) :
    List Char → Option (List (List Char))
  | [] => if acc = [] then none else some [acc.reverse]
  | c :: rest =>
    if c = '/' then
      if acc = [] then none
      else (segsGoW w [] rest).map (fun l => acc.reverse :: l)
    else if w c then segsGoW w (c :: acc) rest
    else none

/-- `segsOf` with the word class abstract. -/
def segsOfW (w : Char → Bool) : List Char → Option (List (List Char))
  | [] => some []
  | '/' :: rest => segsGoW w [] rest
  | _ => none

/-- `fragOf` with the word class abstract. -/
def fragOfW (w : Char → Bool) (cs : List Char) : Option (Option (List Char)) :=
  match cs with
  | [] => some none
  | _ =>
    match stripHashDefs cs with
    | some rest =>
      if rest ≠ [] ∧ rest.all w then some (some rest) else none
    | none => none

/-- The character-level reference parser (`FromStr`, `reference.rs` lines
115-168) with the word class abstract: the scheme and query checks followed
by the anchored regex match. -/
def parseRefCharsW (w : Char → Bool) (cs : List Char) :
    Except RefError Reference :=
  if ¬ (cs.head? = some '/' ∨ cs.head? = some '#') then
    .error ⟨.hasScheme, cs.asString⟩
  else if '?' ∈ cs then
    .error ⟨.hasQuery, cs.asString⟩
  else
    match segsOfW w (cs.takeWhile (fun c => c ≠ '#')),
        fragOfW w (cs.dropWhile (fun c => c ≠ '#')) with
    | some (s :: ss), some (some f) =>
      .ok (.both ((s :: ss).dropLast.map List.asString)
        (((s :: ss).getLast (by simp)).asString) f.asString)
    | some (s :: ss), some none =>
      .ok (.pathOnly ((s :: ss).dropLast.map List.asString)
        (((s :: ss).getLast (by simp)).asString))
    | some [], some (some f) => .ok (.fragmentOnly f.asString)
    | _, _ => .error ⟨.invalidStructure, cs.asString⟩

/-- `FromStr for Reference` with the word class abstract. -/
def parseRefW (w : Char → Bool) (s : String) : Except RefError Reference :=
  parseRefCharsW w s.toList

/-- Modelled from the spec's grammar description, independently of the
parser, with the word class abstract: an optional path of one or more
slash-led word segments followed by an optional fragment of the exact shape
`#/$defs/segment`, at least one of the two present. -/
def specGrammarW (w : Char → Bool) (cs : List Char) : Prop :=
  ∃ pathSegs : List (List Char), ∃ frag : Option (List Char),
    (∀ seg ∈ pathSegs, seg ≠ [] ∧ seg.all w) ∧
    (∀ f, frag = some f → f ≠ [] ∧ f.all w) ∧
    ¬ (pathSegs = [] ∧ frag = none) ∧
    cs = joinSegs pathSegs ++
      (match frag with
        | none => []
        | some f => '#' :: '/' :: '$' :: 'd' :: 'e' :: 'f' :: 's' :: '/' :: f)

theorem wordW_ne_slash {w : Char → Bool} (hws : w '/' = false) {c : Char}
    (h : w c = true) : c ≠ '/' := by
  intro hEq
  subst hEq
  rw [hws] at h
  cases h

theorem wordW_ne_hash {w : Char → Bool} (hwh : w '#' = false) {c : Char}
    (h : w c = true) : c ≠ '#' := by
  intro hEq
  subst hEq
  rw [hwh] at h
  cases h

theorem segsGoW_nil (w : Char → Bool) (acc : List Char) :
    segsGoW w acc [] = if acc = [] then none else some [acc.reverse] :=
  rfl

theorem segsGoW_cons (w : Char → Bool) (acc : List Char) (c : Char)
    (rest : List Char) :
    segsGoW w acc (c :: rest) =
      if c = '/' then
        if acc = [] then none
        else (segsGoW w [] rest).map (fun l => acc.reverse :: l)
      else if w c then segsGoW w (c :: acc) rest
      else none :=
  rfl

theorem segsGoW_join {w : Char → Bool} (cs : List Char) :
    ∀ acc ll, segsGoW w acc cs = some ll →
    ∃ hd tl, ll = hd :: tl ∧ hd ++ joinSegs tl = acc.reverse ++ cs := by
  induction cs with
  | nil =>
    intro acc ll h
    unfold segsGoW at h
    split at h
    · exact absurd h (by simp)
    · refine ⟨acc.reverse, [], by simpa using h.symm, by simp [joinSegs]⟩
  | cons c rest ih =>
    intro acc ll h
    unfold segsGoW at h
    by_cases hc : c = '/'
    · subst hc
      rw [if_pos rfl] at h
      by_cases ha : acc = []
      · rw [if_pos ha] at h
        exact absurd h (by simp)
      · rw [if_neg ha] at h
        obtain ⟨ll', hll', rfl⟩ := Option.map_eq_some'.mp h
        obtain ⟨hd', tl', rfl, hjoin⟩ := ih [] ll' hll'
        refine ⟨acc.reverse, hd' :: tl', rfl, ?_⟩
        simp only [joinSegs, List.map_cons, List.flatten_cons] at hjoin ⊢
        simp at hjoin
        simp [hjoin]
    · rw [if_neg hc] at h
      by_cases hwc : w c
      · rw [if_pos hwc] at h
        obtain ⟨hd, tl, rfl, hjoin⟩ := ih (c :: acc) ll h
        refine ⟨hd, tl, rfl, ?_⟩
        simpa using hjoin
      · rw [if_neg hwc] at h
        exact absurd h (by simp)

theorem segsOfW_join {w : Char → Bool} {cs : List Char} {l : List (List Char)}
    (h : segsOfW w cs = some l) : joinSegs l = cs := by
  unfold segsOfW at h
  split at h
  · simp_all [joinSegs]
  · obtain ⟨hd, tl, rfl, hjoin⟩ := segsGoW_join _ [] l h
    simp only [joinSegs, List.map_cons, List.flatten_cons]
    simp only [List.reverse_nil, List.nil_append] at hjoin
    simpa [joinSegs] using hjoin
  · exact absurd h (by simp)

theorem segsGoW_valid {w : Char → Bool} (cs : List Char) :
    ∀ acc ll, segsGoW w acc cs = some ll →
    acc.all w = true → ∀ seg ∈ ll, seg ≠ [] ∧ seg.all w = true := by
  induction cs with
  | nil =>
    intro acc ll h hacc
    unfold segsGoW at h
    split at h
    · exact absurd h (by simp)
    case isFalse hne =>
      obtain rfl : [acc.reverse] = ll := by simpa using h
      intro seg hseg
      simp only [List.mem_singleton] at hseg
      subst hseg
      exact ⟨by simpa using hne, by simpa using hacc⟩
  | cons c rest ih =>
    intro acc ll h hacc
    unfold segsGoW at h
    by_cases hc : c = '/'
    · subst hc
      rw [if_pos rfl] at h
      by_cases ha : acc = []
      · rw [if_pos ha] at h
        exact absurd h (by simp)
      · rw [if_neg ha] at h
        obtain ⟨ll', hll', rfl⟩ := Option.map_eq_some'.mp h
        intro seg hseg
        rcases List.mem_cons.mp hseg with rfl | hmem
        · exact ⟨by simpa using ha, by simpa using hacc⟩
        · exact ih [] ll' hll' (by simp) seg hmem
    · rw [if_neg hc] at h
      by_cases hwc : w c
      · rw [if_pos hwc] at h
        exact ih (c :: acc) ll h (by simp [hwc, hacc])
      · rw [if_neg hwc] at h
        exact absurd h (by simp)

theorem segsOfW_valid {w : Char → Bool} {cs : List Char} {l : List (List Char)}
    (h : segsOfW w cs = some l) :
    ∀ seg ∈ l, seg ≠ [] ∧ seg.all w = true := by
  unfold segsOfW at h
  split at h
  · simp only [Option.some.injEq] at h
    subst h
    intro seg hseg
    exact absurd hseg (by simp)
  · exact segsGoW_valid _ [] l h (by simp)
  · exact absurd h (by simp)

theorem segsGoW_append_word {w : Char → Bool} (hws : w '/' = false) :
    ∀ (seg : List Char), seg.all w = true →
    ∀ acc rest, segsGoW w acc (seg ++ rest) = segsGoW w (seg.reverse ++ acc) rest := by
  intro seg
  induction seg with
  | nil => intro _ acc rest; simp
  | cons c seg' ih =>
    intro hall acc rest
    simp only [List.all_cons, Bool.and_eq_true] at hall
    have hc : w c = true := hall.1
    rw [List.cons_append, segsGoW_cons, if_neg (wordW_ne_slash hws hc),
      if_pos hc, ih hall.2 (c :: acc) rest]
    simp

theorem segsOfW_complete {w : Char → Bool} (hws : w '/' = false) :
    ∀ (l : List (List Char)),
    (∀ seg ∈ l, seg ≠ [] ∧ seg.all w = true) →
    segsOfW w (joinSegs l) = some l := by
  intro l
  induction l with
  | nil => intro _; simp [joinSegs, segsOfW]
  | cons seg tl ih =>
    intro hvalid
    have hseg := hvalid seg (by simp)
    have hne : seg.reverse ≠ [] := by simpa using hseg.1
    have hjoin : joinSegs (seg :: tl) = '/' :: (seg ++ joinSegs tl) := by
      simp [joinSegs]
    rw [hjoin]
    show segsGoW w [] (seg ++ joinSegs tl) = some (seg :: tl)
    rw [segsGoW_append_word hws seg hseg.2, List.append_nil]
    cases tl with
    | nil =>
      simp only [joinSegs, List.map_nil, List.flatten_nil]
      rw [segsGoW_nil, if_neg hne]
      simp
    | cons seg2 tl' =>
      have hjoin2 : joinSegs (seg2 :: tl') = '/' :: (seg2 ++ joinSegs tl') := by
        simp [joinSegs]
      have ih2 : segsGoW w [] (seg2 ++ joinSegs tl') = some (seg2 :: tl') := by
        have h3 := ih (fun s hs => hvalid s (List.mem_cons_of_mem _ hs))
        rw [hjoin2] at h3
        exact h3
      rw [hjoin2, segsGoW_cons, if_pos rfl, if_neg hne, ih2]
      simp

theorem takeWhile_append_all {p : Char → Bool} : ∀ {xs ys : List Char},
    (∀ c ∈ xs, p c = true) →
    (xs ++ ys).takeWhile p = xs ++ ys.takeWhile p := by
  intro xs
  induction xs with
  | nil => intro ys _; simp
  | cons c xs' ih =>
    intro ys hall
    have hc : p c = true := hall c (by simp)
    have h2 := @ih ys (fun d hd => hall d (by simp [hd]))
    simp [List.takeWhile_cons, hc, h2]

theorem dropWhile_append_all {p : Char → Bool} : ∀ {xs ys : List Char},
    (∀ c ∈ xs, p c = true) →
    (xs ++ ys).dropWhile p = ys.dropWhile p := by
  intro xs
  induction xs with
  | nil => intro ys _; simp
  | cons c xs' ih =>
    intro ys hall
    have hc : p c = true := hall c (by simp)
    have h2 := @ih ys (fun d hd => hall d (by simp [hd]))
    simp [List.dropWhile_cons, hc, h2]

theorem joinSegs_no_hashW {w : Char → Bool} (hwh : w '#' = false)
    {l : List (List Char)}
    (hvalid : ∀ seg ∈ l, seg ≠ [] ∧ seg.all w = true) :
    ∀ c ∈ joinSegs l, (c ≠ '#' : Bool) = true := by
  intro c hc
  simp only [joinSegs, List.mem_flatten, List.mem_map] at hc
  obtain ⟨piece, ⟨seg, hseg, rfl⟩, hcpiece⟩ := hc
  rcases List.mem_cons.mp hcpiece with rfl | hmem
  · simp
  · have := (hvalid seg hseg).2
    rw [List.all_eq_true] at this
    simpa using wordW_ne_hash hwh (this c hmem)

theorem fragOfW_build {w : Char → Bool} {f : List Char} (hne : f ≠ [])
    (hall : f.all w = true) :
    fragOfW w ('#' :: '/' :: '$' :: 'd' :: 'e' :: 'f' :: 's' :: '/' :: f) =
      some (some f) := by
  unfold fragOfW
  simp [stripHashDefs, hne, hall]

theorem fragOfW_none_inv {w : Char → Bool} {cs : List Char}
    (h : fragOfW w cs = some none) : cs = [] := by
  unfold fragOfW at h
  split at h
  · rfl
  · split at h
    · split at h <;> simp_all
    · exact absurd h (by simp)

theorem fragOfW_some_inv {w : Char → Bool} {cs f : List Char}
    (h : fragOfW w cs = some (some f)) :
    cs = '#' :: '/' :: '$' :: 'd' :: 'e' :: 'f' :: 's' :: '/' :: f ∧
      f ≠ [] ∧ f.all w := by
  unfold fragOfW at h
  split at h
  · exact absurd h (by simp)
  · split at h
    case _ rest hstrip =>
      split at h
      · simp only [Option.some.injEq] at h
        obtain rfl : f = rest := by simp_all
        exact ⟨stripHashDefs_inv hstrip, by simp_all⟩
      · exact absurd h (by simp)
    · exact absurd h (by simp)

theorem parse_scheme_errW {w : Char → Bool} {cs : List Char}
    (h : ¬ (cs.head? = some '/' ∨ cs.head? = some '#')) :
    parseRefCharsW w cs = .error ⟨.hasScheme, cs.asString⟩ := by
  unfold parseRefCharsW
  rw [if_pos h]

theorem parse_query_errW {w : Char → Bool} {cs : List Char}
    (hhead : cs.head? = some '/' ∨ cs.head? = some '#') (hq : '?' ∈ cs) :
    parseRefCharsW w cs = .error ⟨.hasQuery, cs.asString⟩ := by
  unfold parseRefCharsW
  rw [if_neg (not_not_intro hhead), if_pos hq]

theorem arm_grammarW {w : Char → Bool} {cs : List Char}
    {segs : List (List Char)} {fr : Option (List Char)}
    (hsegs : segsOfW w (cs.takeWhile (fun c => c ≠ '#')) = some segs)
    (hfrag : fragOfW w (cs.dropWhile (fun c => c ≠ '#')) = some fr)
    (hne : ¬ (segs = [] ∧ fr = none)) : specGrammarW w cs := by
  refine ⟨segs, fr, segsOfW_valid hsegs, ?_, hne, ?_⟩
  · intro f hf
    rw [hf] at hfrag
    obtain ⟨-, h1, h2⟩ := fragOfW_some_inv hfrag
    exact ⟨h1, h2⟩
  · have hjoin := segsOfW_join hsegs
    cases fr with
    | none =>
      have hd := fragOfW_none_inv hfrag
      conv_lhs => rw [← List.takeWhile_append_dropWhile
        (p := fun c => decide (c ≠ '#')) (l := cs)]
      rw [hjoin, hd]
    | some f =>
      obtain ⟨hd, -, -⟩ := fragOfW_some_inv hfrag
      conv_lhs => rw [← List.takeWhile_append_dropWhile
        (p := fun c => decide (c ≠ '#')) (l := cs)]
      rw [hjoin, hd]

theorem parse_completeW {w : Char → Bool} (hws : w '/' = false)
    (hwh : w '#' = false) {cs : List Char}
    (hhead : cs.head? = some '/' ∨ cs.head? = some '#') (hq : '?' ∉ cs)
    (hg : specGrammarW w cs) : ∃ r, parseRefCharsW w cs = .ok r := by
  obtain ⟨segs, fr, hvalid, hfr, hne, rfl⟩ := hg
  have hnohash := joinSegs_no_hashW hwh hvalid
  unfold parseRefCharsW
  rw [if_neg (not_not_intro hhead), if_neg hq]
  cases fr with
  | none =>
    have htake : ((joinSegs segs ++ ([] : List Char)).takeWhile
        (fun c => decide (c ≠ '#'))) = joinSegs segs := by
      rw [takeWhile_append_all hnohash]
      simp
    have hdrop : ((joinSegs segs ++ ([] : List Char)).dropWhile
        (fun c => decide (c ≠ '#'))) = [] := by
      rw [dropWhile_append_all hnohash]
      simp
    rw [htake, hdrop, segsOfW_complete hws segs hvalid]
    cases segs with
    | nil => exact absurd ⟨rfl, rfl⟩ hne
    | cons s ss => exact ⟨_, rfl⟩
  | some f =>
    obtain ⟨hfne, hfall⟩ := hfr f rfl
    have htake : ((joinSegs segs ++
        ('#' :: '/' :: '$' :: 'd' :: 'e' :: 'f' :: 's' :: '/' :: f)).takeWhile
        (fun c => decide (c ≠ '#'))) = joinSegs segs := by
      rw [takeWhile_append_all hnohash]
      simp [List.takeWhile_cons]
    have hdrop : ((joinSegs segs ++
        ('#' :: '/' :: '$' :: 'd' :: 'e' :: 'f' :: 's' :: '/' :: f)).dropWhile
        (fun c => decide (c ≠ '#'))) =
        '#' :: '/' :: '$' :: 'd' :: 'e' :: 'f' :: 's' :: '/' :: f := by
      rw [dropWhile_append_all hnohash]
      simp [List.dropWhile_cons]
    rw [htake, hdrop, segsOfW_complete hws segs hvalid, fragOfW_build hfne hfall]
    cases segs with
    | nil => exact ⟨_, rfl⟩
    | cons s ss => exact ⟨_, rfl⟩

theorem parse_invalid_errW {w : Char → Bool} {cs : List Char}
    (hhead : cs.head? = some '/' ∨ cs.head? = some '#') (hq : '?' ∉ cs)
    (hg : ¬ specGrammarW w cs) :
    parseRefCharsW w cs = .error ⟨.invalidStructure, cs.asString⟩ := by
  unfold parseRefCharsW
  rw [if_neg (not_not_intro hhead), if_neg hq]
  split
  case _ hsegs hfrag => exact absurd (arm_grammarW hsegs hfrag (by simp)) hg
  case _ hsegs hfrag => exact absurd (arm_grammarW hsegs hfrag (by simp)) hg
  case _ hsegs hfrag => exact absurd (arm_grammarW hsegs hfrag (by simp)) hg
  · rfl

/-- C8: classification of the reference parser's outcomes, for every word
class `w` under which `/` and `#` are not word characters — as holds of the
regex crate's Unicode-aware `\w`. The scheme error occurs exactly when the
string does not start with `/` or `#`; the query error exactly when it does
but contains `?`; the structure error exactly when, the two checks passed,
the string does not match the fixed grammar (a path of one or more slash-led
word segments and/or a fragment of the exact shape `#/$defs/segment`);
acceptance requires matching the grammar with at least one component
present. -/
theorem parse_error_classification (w : Char → Bool) (hws : w '/' = false)
    (hwh : w '#' = false) (s : String) :
    (parseRefW w s = .error ⟨.hasScheme, s⟩ ↔
      ¬ (s.toList.head? = some '/' ∨ s.toList.head? = some '#')) ∧
    (parseRefW w s = .error ⟨.hasQuery, s⟩ ↔
      ((s.toList.head? = some '/' ∨ s.toList.head? = some '#') ∧
        '?' ∈ s.toList)) ∧
    (parseRefW w s = .error ⟨.invalidStructure, s⟩ ↔
      ((s.toList.head? = some '/' ∨ s.toList.head? = some '#') ∧
        '?' ∉ s.toList ∧ ¬ specGrammarW w s.toList)) ∧
    ((∃ r, parseRefW w s = .ok r) ↔
      ((s.toList.head? = some '/' ∨ s.toList.head? = some '#') ∧
        '?' ∉ s.toList ∧ specGrammarW w s.toList)) := by
  have hs : s.toList.asString = s := String.asString_toList s
  by_cases h1 : s.toList.head? = some '/' ∨ s.toList.head? = some '#'
  · by_cases h2 : '?' ∈ s.toList
    · have hp : parseRefW w s = .error ⟨.hasQuery, s⟩ := by
        unfold parseRefW
        rw [parse_query_errW h1 h2, hs]
      rw [hp]
      refine ⟨?_, ?_, ?_, ?_⟩ <;> simp_all
    · by_cases h3 : specGrammarW w s.toList
      · obtain ⟨r, hp⟩ := parse_completeW hws hwh h1 h2 h3
        rw [show parseRefW w s = .ok r from hp]
        refine ⟨?_, ?_, ?_, ?_⟩ <;> simp_all
      · have hp : parseRefW w s = .error ⟨.invalidStructure, s⟩ := by
          unfold parseRefW
          rw [parse_invalid_errW h1 h2 h3, hs]
        rw [hp]
        refine ⟨?_, ?_, ?_, ?_⟩ <;> simp_all
  · have hp : parseRefW w s = .error ⟨.hasScheme, s⟩ := by
      unfold parseRefW
      rw [parse_scheme_errW h1, hs]
    rw [hp]
    refine ⟨?_, ?_, ?_, ?_⟩ <;> simp_all

/-- Witness for `parse_error_classification`: the ASCII word-class instance
at the accepted string `/a`. -/
theorem parse_error_classification_witness :
    isWordChar '/' = false ∧ isWordChar '#' = false ∧
    ((parseRefW isWordChar "/a" = .error ⟨.hasScheme, "/a"⟩ ↔
      ¬ ("/a".toList.head? = some '/' ∨ "/a".toList.head? = some '#')) ∧
    (parseRefW isWordChar "/a" = .error ⟨.hasQuery, "/a"⟩ ↔
      (("/a".toList.head? = some '/' ∨ "/a".toList.head? = some '#') ∧
        '?' ∈ "/a".toList)) ∧
    (parseRefW isWordChar "/a" = .error ⟨.invalidStructure, "/a"⟩ ↔
      (("/a".toList.head? = some '/' ∨ "/a".toList.head? = some '#') ∧
        '?' ∉ "/a".toList ∧ ¬ specGrammarW isWordChar "/a".toList)) ∧
    ((∃ r, parseRefW isWordChar "/a" = .ok r) ↔
      (("/a".toList.head? = some '/' ∨ "/a".toList.head? = some '#') ∧
        '?' ∉ "/a".toList ∧ specGrammarW isWordChar "/a".toList))) :=
  ⟨by decide, by decide,
    parse_error_classification isWordChar (by decide) (by decide) "/a"⟩
